import Mathlib

set_option maxRecDepth 8000

/- Formal model of the Ty-AP content-identity and clustering engine
   (URL/title normalization, dedupe index, per-host rate limiting,
   event clustering with scoring, retention sweep).

   Modeling conventions:
   - Python floats are modeled as exact rationals.
   - Wall-clock timestamps (time.time(), datetime values) are rationals
     counting seconds; differences of datetimes are plain subtraction.
   - Python dicts used as string-keyed maps are modeled as association
     lists with first-match lookup and in-place update.
   - Fallible Python code (code that can raise) returns Except. -/

/-! ### src/src/rate_limit.py -/

structure TokenBucket where
  capacity : ℚ
  tokens : ℚ
  refill_rate : ℚ
  updated_at : ℚ
deriving DecidableEq

/- TokenBucket.consume: time.time() is passed in as the explicit argument
   now.  Mirrors: refill to min(capacity, tokens + elapsed*refill_rate),
   stamp updated_at, then consume if at least amount tokens remain. -/
def TokenBucket.consume (b : TokenBucket) (now : ℚ) (amount : ℚ) : Bool × TokenBucket :=
  let elapsed := now - b.updated_at
  let tokens := min b.capacity (b.tokens + elapsed * b.refill_rate)
  if tokens ≥ amount then
    (true, { b with tokens := tokens - amount, updated_at := now })
  else
    (false, { b with tokens := tokens, updated_at := now })

def bucketsGet (l : List (String × TokenBucket)) (k : String) : Option TokenBucket :=
  match l with
  | [] => none
  | (k', b) :: rest => if k' = k then some b else bucketsGet rest k

def bucketsSet (l : List (String × TokenBucket)) (k : String) (b : TokenBucket) : List (String × TokenBucket) :=
  match l with
  | [] => [(k, b)]
  | (k', b') :: rest => if k' = k then (k, b) :: rest else (k', b') :: bucketsSet rest k b

structure RateLimiter where
  qps : ℚ
  burst : ℚ
  buckets : List (String × TokenBucket)

/- RateLimiter.allow: the bucket is created lazily (full, stamped now) when
   absent; the lock makes the lookup/consume/update sequence atomic, so the
   sequential model below is the locked behavior.  The two successive
   time.time() reads inside one call are modeled by the single instant now. -/
def RateLimiter.allow (rl : RateLimiter) (key : String) (now : ℚ) : Bool × RateLimiter :=
  let bucket := match bucketsGet rl.buckets key with
    | some b => b
    | none => { capacity := rl.burst, tokens := rl.burst, refill_rate := rl.qps, updated_at := now }
  let r := bucket.consume now 1
  (r.1, { rl with buckets := bucketsSet rl.buckets key r.2 })

/-! ### src/src/normalization.py - text helpers -/

/- Python regex \s modeled over the ASCII whitespace characters (the titles
   and URLs in this development are ASCII; unicode space classes are out of
   scope of the character-level model). -/
def isPySpace (c : Char) : Bool :=
  c = ' ' || c = '\t' || c = '\n' || c = '\r' || c = '\x0b' || c = '\x0c'

/- Scan for the closing quote of an HTML tag: the regex piece [^>]+> after
   its first guaranteed non-GT character. -/
def consumeTag : List Char → Option (List Char)
  | [] => none
  | '>' :: rest => some rest
  | _ :: rest => consumeTag rest

/- One attempt of the regex <[^>]+> just after an opening angle bracket. -/
def matchTag (l : List Char) : Option (List Char) :=
  match l with
  | [] => none
  | c :: rest => if c = '>' then none else consumeTag rest

/- HTML_TAG_RE.sub("", value): drop every non-overlapping leftmost match of
   the pattern LT [^>]+ GT.  Fuel is the input length, which the recursion
   never exhausts because every step consumes at least one character. -/
def stripHtmlAux : ℕ → List Char → List Char
  | 0, _ => []
  | _, [] => []
  | fuel + 1, c :: rest =>
    if c = '<' then
      match matchTag rest with
      | some rest' => stripHtmlAux fuel rest'
      | none => c :: stripHtmlAux fuel rest
    else c :: stripHtmlAux fuel rest

def strip_html (s : String) : String :=
  ⟨stripHtmlAux s.toList.length s.toList⟩

/- WHITESPACE_RE.sub(" ", value): collapse every whitespace run to one
   space.  The flag records whether the previous character was whitespace. -/
def collapseWsAux (prevSpace : Bool) : List Char → List Char
  | [] => []
  | c :: rest =>
    if isPySpace c then
      if prevSpace then collapseWsAux true rest
      else ' ' :: collapseWsAux true rest
    else c :: collapseWsAux false rest

/- str.strip() on the ASCII whitespace class. -/
def pyStripChars (l : List Char) : List Char :=
  ((l.dropWhile isPySpace).reverse.dropWhile isPySpace).reverse

def normalize_whitespace (s : String) : String :=
  ⟨pyStripChars (collapseWsAux false s.toList)⟩

def normalize_title (s : String) : String :=
  normalize_whitespace (strip_html s)

/-! ### Data model: NewsItem (src/src/schemas.py)

The fields that the clustering engine, dedupe index and sentiment scan
read.  Transport-only metadata (schema_version, origin, language,
score_hint) is omitted; datetimes are rational POSIX timestamps. -/

structure NewsItem where
  id : String
  source : String
  url : String
  title : String
  summary : Option String
  published_at : ℚ
  fetched_at : ℚ
  content_text : Option String
  hash : String
deriving DecidableEq

/-! ### src/src/confirm.py - _sentiment_hint -/

/- Python str.lower modeled on the ASCII range via Char.toLower. -/
def pythonLower (s : String) : String :=
  ⟨s.toList.map Char.toLower⟩

/- Python substring test: needle in hay. -/
def containsSub (hay needle : List Char) : Bool :=
  hay.tails.any (fun t => needle.isPrefixOf t)

def negative_keywords : List String := ["hack", "lawsuit", "layoff", "bankrupt"]

def positive_keywords : List String := ["launch", "growth", "profit", "surge"]

/- The per-item body of the loop in _sentiment_hint: plus one if ANY
   positive keyword occurs in the lower-cased title, minus one if ANY
   negative keyword occurs. -/
def sentimentStep (score : ℤ) (item : NewsItem) : ℤ :=
  let title := pythonLower item.title
  let s1 := if positive_keywords.any (fun w => containsSub title.toList w.toList)
    then score + 1 else score
  if negative_keywords.any (fun w => containsSub title.toList w.toList)
    then s1 - 1 else s1

def sentiment_hint (items : List NewsItem) : Option String :=
  let score := items.foldl sentimentStep 0
  if score > 1 then some "positive"
  else if score < -1 then some "negative"
  else none

/- The claim's reading of the sentiment rule (for comparison with the
   code): the counter moves once per MATCHING KEYWORD, not once per title
   and polarity. -/
def sentimentHintPerKeyword (items : List NewsItem) : Option String :=
  let score : ℤ := items.foldl (fun score item =>
    let title := pythonLower item.title
    score + ((positive_keywords.filter (fun w => containsSub title.toList w.toList)).length : ℤ)
      - ((negative_keywords.filter (fun w => containsSub title.toList w.toList)).length : ℤ)) 0
  if score > 1 then some "positive"
  else if score < -1 then some "negative"
  else none

def sentimentExampleItem : NewsItem :=
  { id := "i1", source := "s", url := "https://example.com/a", title := "Launch growth surge"
    summary := none, published_at := 0, fetched_at := 0, content_text := none, hash := "h1" }

/- The per-title indicator the code actually implements. -/
def sentimentTitleDelta (item : NewsItem) : ℤ :=
  let title := pythonLower item.title
  (if positive_keywords.any (fun w => containsSub title.toList w.toList) then (1 : ℤ) else 0)
    - (if negative_keywords.any (fun w => containsSub title.toList w.toList) then (1 : ℤ) else 0)

/-! ### src/src/confirm.py - ClusterCandidate and cluster_news

The fuzzy scorer rapidfuzz.fuzz.token_set_ratio is an external library;
it is modeled as an explicit function parameter sim returning a 0-100
rational, exactly as the spec glossary describes it. -/

def defaultNewsItem : NewsItem :=
  { id := "", source := "", url := "", title := "", summary := none,
    published_at := 0, fetched_at := 0, content_text := none, hash := "" }

/- Python max(xs, default=d): d only when the list is empty. -/
def pyMaxD (d : ℚ) : List ℚ → ℚ
  | [] => d
  | x :: xs => xs.foldl max x

structure ClusterCandidate where
  canonical_title : String
  items : List NewsItem
  similarities : List ℚ
deriving DecidableEq

/- ClusterCandidate.add: append to both parallel arrays, then refresh the
   representative title only when the new similarity strictly exceeds the
   maximum of all previously recorded similarities (max of sims[:-1] after
   the append, i.e. of the old list, default 0). -/
def ClusterCandidate.add (c : ClusterCandidate) (item : NewsItem) (similarity : ℚ) :
    ClusterCandidate :=
  let items := c.items ++ [item]
  let sims := c.similarities ++ [similarity]
  if similarity > pyMaxD 0 c.similarities then
    { canonical_title := item.title, items := items, similarities := sims }
  else
    { canonical_title := c.canonical_title, items := items, similarities := sims }

/- min/max over member publishedAt; Python raises on an empty member list,
   which cluster_news never produces; the model returns 0 there. -/
def ClusterCandidate.first_seen (c : ClusterCandidate) : ℚ :=
  match c.items with
  | [] => 0
  | x :: xs => xs.foldl (fun acc it => min acc it.published_at) x.published_at

def ClusterCandidate.last_seen (c : ClusterCandidate) : ℚ :=
  match c.items with
  | [] => 0
  | x :: xs => xs.foldl (fun acc it => max acc it.published_at) x.published_at

def ClusterCandidate.similarity_score (c : ClusterCandidate) : ℚ :=
  if c.similarities = [] then 0
  else c.similarities.sum / (c.similarities.length : ℚ)

def SOURCE_SCORES : List (String × ℚ) :=
  [("coindesk", 1), ("theblock", 1), ("blockworks", 1), ("cryptopanic", 2), ("messari", 1)]

def sourceWeight (s : String) : ℚ :=
  match SOURCE_SCORES.lookup s with
  | some w => w
  | none => 1/2

def ClusterCandidate.source_score (c : ClusterCandidate) : ℚ :=
  (c.items.map (fun it => sourceWeight it.source)).sum

/- freshness_score reads datetime.now at call time; now is that instant. -/
def ClusterCandidate.freshness_score (c : ClusterCandidate) (now : ℚ) : ℚ :=
  let age_minutes := (now - c.first_seen) / 60
  max 0 (1 - age_minutes / 1440) * 100

/-! Entity detection: case-insensitive whole-word regex patterns.  A word
boundary holds where a word character (letter, digit, underscore) meets a
non-word character or an end of the text. -/

def isWordChar (c : Char) : Bool := c.isAlphanum || c = '_'

def rightBoundary : List Char → Bool
  | [] => true
  | c :: _ => !(isWordChar c)

def altHere (alts : List (List Char)) (s : List Char) : Bool :=
  alts.any (fun a => a.isPrefixOf s && rightBoundary (s.drop a.length))

def wordSearch (alts : List (List Char)) : Option Char → List Char → Bool
  | _, [] => false
  | prev, c :: rest =>
    ((match prev with
      | none => true
      | some p => !(isWordChar p)) && altHere alts (c :: rest))
    || wordSearch alts (some c) rest

/- Each compiled IGNORECASE pattern, expanded into its lower-cased
   whole-word alternatives; hack(ed|ing)? expands to its three words. -/
def ENTITY_PATTERNS : List (String × List String) :=
  [("BTC", ["btc"]), ("ETH", ["eth"]), ("SOL", ["sol"]), ("ETF", ["etf"]), ("SEC", ["sec"]),
    ("HACK", ["hack", "hacked", "hacking"]), ("FUNDING", ["funding rate"])]

def patternSearch (alts : List String) (text : String) : Bool :=
  wordSearch (alts.map (fun a => a.toList)) none (pythonLower text).toList

def ClusterCandidate.detect_entities (c : ClusterCandidate) : List String :=
  let combined := String.intercalate " " (c.items.map (fun it => it.title))
  ENTITY_PATTERNS.foldl (fun entities lp =>
    if patternSearch lp.2 combined && !(entities.contains lp.1) then entities ++ [lp.1]
    else entities) []

/- Python round(x, 2), modeled as exact decimal rounding half to even. -/
def pyRound2 (x : ℚ) : ℚ :=
  let y := x * 100
  let f : ℤ := ⌊y⌋
  let r : ℚ := y - (f : ℚ)
  let n : ℤ :=
    if r > 1/2 then f + 1
    else if r < 1/2 then f
    else if f % 2 = 0 then f else f + 1
  (n : ℚ) / 100

def SIMILARITY_WEIGHT : ℚ := 6/10

def SOURCE_WEIGHT : ℚ := 3/10

def FRESHNESS_WEIGHT : ℚ := 1/10

structure NewsCluster where
  origin : String
  cluster_id : String
  canonical_title : String
  summary : Option String
  score : ℚ
  source_count : ℕ
  entities : List String
  first_seen : ℚ
  last_seen : ℚ
  sentiment_hint : Option String
  links : List String
deriving DecidableEq

/- ClusterCandidate.to_schema(origin), with datetime.now passed as now. -/
def ClusterCandidate.to_schema (c : ClusterCandidate) (now : ℚ) (origin : String) : NewsCluster :=
  let similarity_component := c.similarity_score / 100 * 100 * SIMILARITY_WEIGHT
  let source_component := c.source_score * 10 * SOURCE_WEIGHT
  let freshness_component := c.freshness_score now * FRESHNESS_WEIGHT
  let score := similarity_component + source_component + freshness_component
  { origin := origin
    cluster_id := "cluster-" ++ (c.items.headD defaultNewsItem).hash.take 12
    canonical_title := c.canonical_title
    summary := (c.items.headD defaultNewsItem).summary
    score := pyRound2 score
    source_count := (c.items.map (fun it => it.source)).dedup.length
    entities := c.detect_entities
    first_seen := c.first_seen
    last_seen := c.last_seen
    sentiment_hint := sentiment_hint c.items
    links := c.items.map (fun it => it.url) }

/- The inner scan of cluster_news over the open clusters, in creation
   order: skip when the window test fails, otherwise compute the fuzzy
   similarity and attach on the first cluster meeting the threshold
   (breaking the loop); none when no cluster matched. -/
def placeIn (sim : String → String → ℚ) (wm : ℤ) (θ : ℚ) (item : NewsItem) (itemTitle : String) :
    List ClusterCandidate → Option (List ClusterCandidate)
  | [] => none
  | c :: cs =>
    if |item.published_at - c.first_seen| > (wm : ℚ) * 60 then
      (placeIn sim wm θ item itemTitle cs).map (fun l => c :: l)
    else
      let s := sim itemTitle (normalize_title c.canonical_title)
      if s / 100 ≥ θ then some (c.add item s :: cs)
      else (placeIn sim wm θ item itemTitle cs).map (fun l => c :: l)

/- One iteration of the outer loop of cluster_news: place the item, or
   open a new cluster holding it alone with recorded similarity 100. -/
def clusterStep (sim : String → String → ℚ) (wm : ℤ) (θ : ℚ)
    (clusters : List ClusterCandidate) (item : NewsItem) : List ClusterCandidate :=
  match placeIn sim wm θ item (normalize_title item.title) clusters with
  | some cs => cs
  | none => clusters ++ [(ClusterCandidate.mk item.title [] []).add item 100]

/- Python sorted(items, key=published_at) is a stable sort; every stable
   sort by one key computes the same list, here by stable insertion. -/
def insertByPublishedAt (item : NewsItem) : List NewsItem → List NewsItem
  | [] => [item]
  | x :: xs =>
    if item.published_at ≤ x.published_at then item :: x :: xs
    else x :: insertByPublishedAt item xs

def sortByPublishedAt : List NewsItem → List NewsItem
  | [] => []
  | x :: xs => insertByPublishedAt x (sortByPublishedAt xs)

def cluster_candidates (sim : String → String → ℚ) (items : List NewsItem)
    (wm : ℤ) (θ : ℚ) : List ClusterCandidate :=
  (sortByPublishedAt items).foldl (clusterStep sim wm θ) []

def cluster_news (sim : String → String → ℚ) (now : ℚ) (items : List NewsItem)
    (wm : ℤ) (θ : ℚ) (origin : String) : List NewsCluster :=
  (cluster_candidates sim items wm θ).map (fun c => c.to_schema now origin)

/- The attachment test of the scan, as a proposition: the window test
   passes (first_seen anchored) and similarity/100 meets the threshold. -/
def attachOk (sim : String → String → ℚ) (wm : ℤ) (θ : ℚ)
    (item : NewsItem) (c : ClusterCandidate) : Prop :=
  ¬ (|item.published_at - c.first_seen| > (wm : ℚ) * 60) ∧
    θ ≤ sim (normalize_title item.title) (normalize_title c.canonical_title) / 100

/- Invariant for C9: the candidate holds its opening item first, the
   canonical title is that item's title, and the first recorded similarity
   is the opening 100. -/
def headTitleInv (c : ClusterCandidate) : Prop :=
  ∃ first rest stail, c.items = first :: rest ∧
    c.canonical_title = first.title ∧ c.similarities = 100 :: stail

def simZero : String → String → ℚ := fun _ _ => 0

def clusterExItem : NewsItem :=
  { id := "n1", source := "coindesk", url := "https://coindesk.com/x",
    title := "BTC ETF approved", summary := none, published_at := 0, fetched_at := 0,
    content_text := none, hash := "abcdef123456" }

/-! ### src/api/admin_cleanup.py - cleanup (retention sweep)

The storage backend is the external contract: list, get_json, delete.
Reads and deletes are fallible (LocalStorage.get_json raises on unreadable
or malformed JSON, delete on filesystem errors; RemoteStorage.delete on
network errors), so they return Except and cleanup, which wraps no handler
around them, propagates any error.  A stored record is modeled by its two
fields cleanup reads: created_at (none when the JSON field is missing or
falsy, otherwise the parsed timestamp) and ttl_days (none when omitted). -/

structure StoredRecord where
  created_at : Option ℚ
  ttl_days : Option ℤ

structure Storage where
  listKeys : String → ℕ → List String
  getJson : String → Except String (Option StoredRecord)
  deleteKey : String → Except String Unit

def CLEANUP_PREFIXES : List String := ["news/raw", "news/clustered", "market", "logs"]

/- The inner key loop of cleanup; acc is the (deleted, kept) pair.
   timedelta.days floors toward negative infinity, hence the floor. -/
def sweepKeys (st : Storage) (now : ℚ) (dry_run : Bool) :
    List String → List String × ℕ → Except String (List String × ℕ)
  | [], acc => Except.ok acc
  | key :: rest, acc =>
    match st.getJson key with
    | Except.error e => Except.error e
    | Except.ok none => sweepKeys st now dry_run rest acc
    | Except.ok (some record) =>
      match record.created_at with
      | none => sweepKeys st now dry_run rest (acc.1, acc.2 + 1)
      | some created =>
        let ttl := record.ttl_days.getD 14
        let age_days : ℤ := ⌊(now - created) / 86400⌋
        if ttl ≤ age_days then
          if dry_run then sweepKeys st now dry_run rest (acc.1 ++ [key], acc.2)
          else
            match st.deleteKey key with
            | Except.error e => Except.error e
            | Except.ok _ => sweepKeys st now dry_run rest (acc.1 ++ [key], acc.2)
        else sweepKeys st now dry_run rest (acc.1, acc.2 + 1)

def cleanupRun (st : Storage) (now : ℚ) (dry_run : Bool) :
    List String → List String × ℕ → Except String (List String × ℕ)
  | [], acc => Except.ok acc
  | p :: ps, acc =>
    match sweepKeys st now dry_run (st.listKeys p 1000) acc with
    | Except.error e => Except.error e
    | Except.ok acc' => cleanupRun st now dry_run ps acc'

def cleanup (st : Storage) (now : ℚ) (dry_run : Bool) : Except String (List String × ℕ) :=
  cleanupRun st now dry_run CLEANUP_PREFIXES ([], 0)

/- A storage holding two expired records under news/raw whose first delete
   fails; every read succeeds. -/
def failingStorage : Storage :=
  { listKeys := fun p _ => if p = "news/raw" then ["news/raw/a.json", "news/raw/b.json"] else []
    getJson := fun _ => Except.ok (some { created_at := some 0, ttl_days := none })
    deleteKey := fun k =>
      if k = "news/raw/a.json" then Except.error "disk failure" else Except.ok () }

/-! ### src/src/normalization.py - deterministic_hash (SHA-256)

hashlib.sha256 over the UTF-8 bytes of the joined string, as hex.  The
hash is computed over natural numbers, with 32-bit words kept reduced
modulo 2^32 explicitly. -/

def w32 : ℕ := 4294967296

def rotr (n x : ℕ) : ℕ := ((x >>> n) ||| (x <<< (32 - n))) % w32

def smallSigma0 (x : ℕ) : ℕ := (rotr 7 x) ^^^ (rotr 18 x) ^^^ (x >>> 3)

def smallSigma1 (x : ℕ) : ℕ := (rotr 17 x) ^^^ (rotr 19 x) ^^^ (x >>> 10)

def bigSigma0 (x : ℕ) : ℕ := (rotr 2 x) ^^^ (rotr 13 x) ^^^ (rotr 22 x)

def bigSigma1 (x : ℕ) : ℕ := (rotr 6 x) ^^^ (rotr 11 x) ^^^ (rotr 25 x)

def SHA_K : List ℕ :=
  [1116352408, 1899447441, 3049323471, 3921009573, 961987163, 1508970993,
   2453635748, 2870763221, 3624381080, 310598401, 607225278, 1426881987,
   1925078388, 2162078206, 2614888103, 3248222580, 3835390401, 4022224774,
   264347078, 604807628, 770255983, 1249150122, 1555081692, 1996064986,
   2554220882, 2821834349, 2952996808, 3210313671, 3336571891, 3584528711,
   113926993, 338241895, 666307205, 773529912, 1294757372, 1396182291,
   1695183700, 1986661051, 2177026350, 2456956037, 2730485921, 2820302411,
   3259730800, 3345764771, 3516065817, 3600352804, 4094571909, 275423344,
   430227734, 506948616, 659060556, 883997877, 958139571, 1322822218,
   1537002063, 1747873779, 1955562222, 2024104815, 2227730452, 2361852424,
   2428436474, 2756734187, 3204031479, 3329325298]

def SHA_H0 : List ℕ :=
  [1779033703, 3144134277, 1013904242, 2773480762, 1359893119, 2600822924,
   528734635, 1541459225]

/- Message schedule, most recent word first. -/
def scheduleStep (acc : List ℕ) : List ℕ :=
  ((smallSigma1 (acc.getD 1 0) + acc.getD 6 0 + smallSigma0 (acc.getD 14 0) + acc.getD 15 0) % w32)
    :: acc

def buildSchedule : ℕ → List ℕ → List ℕ
  | 0, acc => acc
  | n + 1, acc => buildSchedule n (scheduleStep acc)

def compressStep (s : List ℕ) (kw : ℕ × ℕ) : List ℕ :=
  match s with
  | [a, b, c, d, e, f, g, h] =>
    let ch := (e &&& f) ^^^ ((e ^^^ 0xffffffff) &&& g)
    let t1 := (h + bigSigma1 e + ch + kw.1 + kw.2) % w32
    let maj := (a &&& b) ^^^ (a &&& c) ^^^ (b &&& c)
    let t2 := (bigSigma0 a + maj) % w32
    [(t1 + t2) % w32, a, b, c, (d + t1) % w32, e, f, g]
  | other => other

def bytesToWords : List ℕ → List ℕ
  | b0 :: b1 :: b2 :: b3 :: rest => (((b0 * 256 + b1) * 256 + b2) * 256 + b3) :: bytesToWords rest
  | _ => []

def beBytes (n : ℕ) : ℕ → List ℕ
  | 0 => []
  | k + 1 => (n / 256 ^ k % 256) :: beBytes n k

def chunksAux : ℕ → List ℕ → List (List ℕ)
  | 0, _ => []
  | _, [] => []
  | fuel + 1, l => l.take 64 :: chunksAux fuel (l.drop 64)

def padMessage (msg : List ℕ) : List ℕ :=
  let L := msg.length
  msg ++ [128] ++ List.replicate ((120 - ((L + 1) % 64)) % 64) 0 ++ beBytes (L * 8) 8

def sha256Block (h : List ℕ) (block : List ℕ) : List ℕ :=
  let ws := (buildSchedule 48 (bytesToWords block).reverse).reverse
  let s := (SHA_K.zip ws).foldl compressStep h
  (h.zip s).map (fun p => (p.1 + p.2) % w32)

def sha256Bytes (msg : List ℕ) : List ℕ :=
  let padded := padMessage msg
  ((chunksAux padded.length padded).foldl sha256Block SHA_H0).foldr
    (fun wv acc => beBytes wv 4 ++ acc) []

def hexDigit (n : ℕ) : Char := if n < 10 then Char.ofNat (48 + n) else Char.ofNat (87 + n)

def byteToHex (b : ℕ) : List Char := [hexDigit (b / 16), hexDigit (b % 16)]

def sha256Hex (msg : List ℕ) : String :=
  ⟨(sha256Bytes msg).foldr (fun b acc => byteToHex b ++ acc) []⟩

/- str.encode("utf-8"): the UTF-8 bytes of a string. -/
def utf8EncodeChar (c : Char) : List ℕ :=
  let n := c.toNat
  if n < 0x80 then [n]
  else if n < 0x800 then [0xc0 + n / 64, 0x80 + n % 64]
  else if n < 0x10000 then [0xe0 + n / 4096, 0x80 + n / 64 % 64, 0x80 + n % 64]
  else [0xf0 + n / 262144, 0x80 + n / 4096 % 64, 0x80 + n / 64 % 64, 0x80 + n % 64]

def utf8Encode (s : String) : List ℕ :=
  (s.toList.map utf8EncodeChar).foldr (fun b acc => b ++ acc) []

/- str.strip() on a whole string. -/
def pyStrip (s : String) : String := ⟨pyStripChars s.toList⟩

/- sep.join(parts): elements concatenated with sep in between. -/
def pyJoin (sep : String) : List String → String
  | [] => ""
  | [x] => x
  | x :: y :: xs => x ++ sep ++ pyJoin sep (y :: xs)

/- deterministic_hash(*parts): join with pipes the parts that are truthy
   (non-empty BEFORE stripping), each stripped, and hash. -/
def deterministic_hash (parts : List String) : String :=
  sha256Hex (utf8Encode (pyJoin "|" ((parts.filter (fun p => p ≠ "")).map pyStrip)))

/- The claim's reading of the pipeline: trim each part FIRST, then keep
   the parts that are non-empty after trimming. -/
def deterministicHashClaimed (parts : List String) : String :=
  sha256Hex (utf8Encode (String.intercalate "|"
    ((parts.map pyStrip).filter (fun p => p ≠ ""))))

def tailJoin (sep : String) : List String → String
  | [] => ""
  | y :: ys => sep ++ y ++ tailJoin sep ys

/-! ### urllib.parse model (Python 3.11) -/

def isC0OrSpace (c : Char) : Bool := c.toNat ≤ 0x20

def isUnsafeUrlByte (c : Char) : Bool := c = '\t' || c = '\r' || c = '\n'

/- urlsplit input sanitization: lstrip C0-control-or-space, then remove
   every tab, carriage return and newline. -/
def sanitizeUrl (l : List Char) : List Char :=
  (l.dropWhile isC0OrSpace).filter (fun c => !(isUnsafeUrlByte c))

/- str.split(sep, 1): chars before the first sep, and the rest when the
   sep occurs. -/
def breakAtChar (sep : Char) : List Char → List Char × Option (List Char)
  | [] => ([], none)
  | c :: rest =>
    if c = sep then ([], some rest)
    else
      let r := breakAtChar sep rest
      (c :: r.1, r.2)

/- str.split(sep): full split. -/
def splitOn (sep : Char) : List Char → List (List Char)
  | [] => [[]]
  | c :: rest =>
    if c = sep then [] :: splitOn sep rest
    else
      match splitOn sep rest with
      | r :: rs => (c :: r) :: rs
      | [] => [[c]]

/- sep.join at the character-list level. -/
def joinChars (sep : Char) : List (List Char) → List Char
  | [] => []
  | [x] => x
  | x :: y :: xs => x ++ sep :: joinChars sep (y :: xs)

def isSchemeChar (c : Char) : Bool :=
  c.isAlpha || c.isDigit || c = '+' || c = '-' || c = '.'

def lowerChars (l : List Char) : List Char := l.map Char.toLower

/- Scheme detection of urlsplit: the part before the first colon is the
   scheme iff it is non-empty, starts with an ASCII letter and consists of
   scheme characters; it is returned lower-cased. -/
def detectScheme (l : List Char) : List Char × List Char :=
  match breakAtChar ':' l with
  | (_, none) => ([], l)
  | (before, some after) =>
    match before with
    | [] => ([], l)
    | c0 :: _ =>
      if c0.isAlpha && before.all isSchemeChar then (lowerChars before, after)
      else ([], l)

/- _splitnetloc: netloc runs to the first of /, ?, # . -/
def splitNetloc : List Char → List Char × List Char
  | [] => ([], [])
  | c :: rest =>
    if c = '/' || c = '?' || c = '#' then ([], c :: rest)
    else
      let r := splitNetloc rest
      (c :: r.1, r.2)

structure SplitUrl where
  scheme : List Char
  netloc : List Char
  path : List Char
  query : List Char
  fragment : List Char
deriving DecidableEq

/- urlsplit(url): sanitize, detect the scheme, take the netloc after a
   leading //, split off the fragment at the first number sign and the
   query at the first question mark.  The bracket-mismatch check raises
   exactly as in the source; the deeper bracketed-host (IPv6) and NFKC
   netloc validations are beyond this character-level model and are
   treated as passing. -/
def urlsplitE (l : List Char) : Except String SplitUrl :=
  let l1 := sanitizeUrl l
  let sr := detectScheme l1
  let nr :=
    if sr.2.take 2 = ['/', '/'] then splitNetloc (sr.2.drop 2)
    else ([], sr.2)
  if (nr.1.contains '[' && !(nr.1.contains ']')) ||
      (nr.1.contains ']' && !(nr.1.contains '[')) then
    Except.error "Invalid IPv6 URL"
  else
    let fr := breakAtChar '#' nr.2
    let qr := breakAtChar '?' fr.1
    Except.ok ⟨sr.1, nr.1, qr.1, qr.2.getD [], fr.2.getD []⟩

def uses_params : List String :=
  ["", "ftp", "hdl", "prospero", "http", "imap", "https", "shttp", "rtsp",
   "rtsps", "rtspu", "sip", "sips", "mms", "sftp", "tel"]

def uses_netloc : List String :=
  ["", "ftp", "http", "gopher", "nntp", "telnet", "imap", "wais", "file",
   "mms", "https", "shttp", "snews", "prospero", "rtsp", "rtsps", "rtspu",
   "rsync", "svn", "svn+ssh", "sftp", "nfs", "git", "git+ssh", "ws", "wss"]

/- _splitparams: split at the first semicolon at-or-after the last slash
   (anywhere when the path has no slash). -/
def splitParams (l : List Char) : List Char × List Char :=
  if l.contains '/' then
    let lastSeg := (l.reverse.takeWhile (fun c => c ≠ '/')).reverse
    let stem := l.take (l.length - lastSeg.length)
    match breakAtChar ';' lastSeg with
    | (_, none) => (l, [])
    | (before, some after) => (stem ++ before, after)
  else
    match breakAtChar ';' l with
    | (_, none) => (l, [])
    | (before, some after) => (before, after)

/- urlparse: urlsplit plus the params split, applied only for schemes in
   uses_params and when a semicolon occurs in the path. -/
def urlparseE (l : List Char) : Except String (SplitUrl × List Char) :=
  match urlsplitE l with
  | Except.error e => Except.error e
  | Except.ok r =>
    if uses_params.contains (String.mk r.scheme) && r.path.contains ';' then
      let pr := splitParams r.path
      Except.ok (⟨r.scheme, r.netloc, pr.1, r.query, r.fragment⟩, pr.2)
    else
      Except.ok (r, [])

/-! percent coding: quote_plus / urlencode and unquote -/

def isAlwaysSafe (c : Char) : Bool :=
  c.isAlpha || c.isDigit || c = '_' || c = '.' || c = '-' || c = '~'

def hexDigitU (n : ℕ) : Char := if n < 10 then Char.ofNat (48 + n) else Char.ofNat (55 + n)

def pctEncodeByte (b : ℕ) : List Char := ['%', hexDigitU (b / 16), hexDigitU (b % 16)]

/- quote_plus with safe='': always-safe characters kept, space becomes a
   plus, everything else percent-encoded per UTF-8 byte, uppercase hex. -/
def quotePlusChar (c : Char) : List Char :=
  if isAlwaysSafe c then [c]
  else if c = ' ' then ['+']
  else (utf8EncodeChar c).foldr (fun b acc => pctEncodeByte b ++ acc) []

def quotePlus (s : String) : List Char :=
  (s.toList.map quotePlusChar).foldr (fun b acc => b ++ acc) []

/- urlencode(pairs) with the default quote_via=quote_plus. -/
def urlencodePairs (pairs : List (String × String)) : List Char :=
  joinChars '&' (pairs.map (fun p => quotePlus p.1 ++ '=' :: quotePlus p.2))

/- str.replace('+', ' ') -/
def plusToSpace (l : List Char) : List Char :=
  l.map (fun c => if c = '+' then ' ' else c)

def hexVal (c : Char) : Option ℕ :=
  if '0' ≤ c ∧ c ≤ '9' then some (c.toNat - 48)
  else if 'a' ≤ c ∧ c ≤ 'f' then some (c.toNat - 87)
  else if 'A' ≤ c ∧ c ≤ 'F' then some (c.toNat - 55)
  else none

def isAsciiChar (c : Char) : Bool := c.toNat ≤ 0x7f

/- The byte/char token stream of unquote: ASCII characters become bytes
   (with %XX hex pairs decoded), non-ASCII characters stay characters and
   separate the byte runs exactly as the ASCII-run splitting in the
   source does. -/
def unquoteTokens : List Char → List (ℕ ⊕ Char)
  | [] => []
  | '%' :: h1 :: h2 :: rest =>
    (match hexVal h1, hexVal h2 with
     | some v1, some v2 => Sum.inl (v1 * 16 + v2) :: unquoteTokens rest
     | _, _ => Sum.inl 37 :: unquoteTokens (h1 :: h2 :: rest))
  | '%' :: rest => Sum.inl 37 :: unquoteTokens rest
  | c :: rest =>
    if isAsciiChar c then Sum.inl c.toNat :: unquoteTokens rest
    else Sum.inr c :: unquoteTokens rest

def replChar : Char := Char.ofNat 0xfffd

def isContB (b : ℕ) : Bool := 0x80 ≤ b && b < 0xc0

def validSecond (b b1 : ℕ) : Bool :=
  if b = 0xe0 then 0xa0 ≤ b1 && b1 ≤ 0xbf
  else if b = 0xed then 0x80 ≤ b1 && b1 ≤ 0x9f
  else if b = 0xf0 then 0x90 ≤ b1 && b1 ≤ 0xbf
  else if b = 0xf4 then 0x80 ≤ b1 && b1 ≤ 0x8f
  else isContB b1

/- Incremental UTF-8 decoding with errors="replace": the pending list
   holds the bytes of an incomplete multi-byte sequence (lead first).  An
   invalid byte yields one replacement character for the pending maximal
   subpart and is then reconsidered fresh, exactly as CPython decodes; a
   character token interrupts (and flushes) any pending sequence. -/
def utf8Flush (pending : List ℕ) : List Char :=
  if pending = [] then [] else [replChar]

def utf8StepEmpty (b : ℕ) : List Char × List ℕ :=
  if b < 0x80 then ([Char.ofNat b], [])
  else if b < 0xc2 then ([replChar], [])
  else if b < 0xf5 then ([], [b])
  else ([replChar], [])

def utf8Step (pending : List ℕ) (b : ℕ) : List Char × List ℕ :=
  match pending with
  | [] => utf8StepEmpty b
  | [l] =>
    if validSecond l b then
      if l < 0xe0 then ([Char.ofNat ((l - 0xc0) * 64 + (b - 0x80))], [])
      else ([], [l, b])
    else (replChar :: (utf8StepEmpty b).1, (utf8StepEmpty b).2)
  | [l, b1] =>
    if isContB b then
      if l < 0xf0 then ([Char.ofNat ((l - 0xe0) * 4096 + (b1 - 0x80) * 64 + (b - 0x80))], [])
      else ([], [l, b1, b])
    else (replChar :: (utf8StepEmpty b).1, (utf8StepEmpty b).2)
  | [l, b1, b2] =>
    if isContB b then
      ([Char.ofNat ((l - 0xf0) * 262144 + (b1 - 0x80) * 4096 + (b2 - 0x80) * 64 + (b - 0x80))], [])
    else (replChar :: (utf8StepEmpty b).1, (utf8StepEmpty b).2)
  | _ => ([], [])

def decodeTokensAux (pending : List ℕ) : List (ℕ ⊕ Char) → List Char
  | [] => utf8Flush pending
  | Sum.inr c :: rest => utf8Flush pending ++ c :: decodeTokensAux [] rest
  | Sum.inl b :: rest =>
    let r := utf8Step pending b
    r.1 ++ decodeTokensAux r.2 rest

def decodeTokens (l : List (ℕ ⊕ Char)) : List Char := decodeTokensAux [] l

def unquoteChars (l : List Char) : List Char := decodeTokens (unquoteTokens l)

/- parse_qsl(qs, keep_blank_values=False): split on ampersands, skip empty
   chunks, skip chunks without an equals sign and pairs with an empty
   value, plus-to-space and percent-decode name and value. -/
def parse_qsl (qs : List Char) : List (String × String) :=
  if qs = [] then []
  else
    (splitOn '&' qs).foldr (fun nv acc =>
      if nv = [] then acc
      else
        match breakAtChar '=' nv with
        | (_, none) => acc
        | (name, some value) =>
          if value = [] then acc
          else (String.mk (unquoteChars (plusToSpace name)),
                String.mk (unquoteChars (plusToSpace value))) :: acc) []

/- Python tuple-of-strings comparison for sorted(): lexicographic by code
   point on the first component, then on the second. -/
def strLtB : List Char → List Char → Bool
  | [], [] => false
  | [], _ :: _ => true
  | _ :: _, [] => false
  | a :: as, b :: bs => if a < b then true else if b < a then false else strLtB as bs

def pairLeB (p q : String × String) : Bool :=
  if strLtB p.1.toList q.1.toList then true
  else if strLtB q.1.toList p.1.toList then false
  else !(strLtB q.2.toList p.2.toList)

def insertPair (p : String × String) : List (String × String) → List (String × String)
  | [] => [p]
  | q :: qs => if pairLeB p q then p :: q :: qs else q :: insertPair p qs

/- sorted(pairs): duplicates are identical tuples, so stable insertion
   sort computes exactly the sorted list. -/
def sortPairs : List (String × String) → List (String × String)
  | [] => []
  | p :: ps => insertPair p (sortPairs ps)

/- urlunsplit of Python 3.11: // is emitted when a netloc exists or when
   the scheme uses a netloc and the path does not already start with //;
   a non-absolute path is then given a leading slash. -/
def urlunsplitChars (scheme netloc url query fragment : List Char) : List Char :=
  let url1 :=
    if netloc ≠ [] ∨ (scheme ≠ [] ∧ uses_netloc.contains (String.mk scheme) ∧
        url.take 2 ≠ ['/', '/']) then
      let url0 := if url ≠ [] ∧ url.take 1 ≠ ['/'] then '/' :: url else url
      '/' :: '/' :: (netloc ++ url0)
    else url
  let url2 := if scheme ≠ [] then scheme ++ ':' :: url1 else url1
  let url3 := if query ≠ [] then url2 ++ '?' :: query else url2
  if fragment ≠ [] then url3 ++ '#' :: fragment else url3

def urlunparseChars (scheme netloc url params query fragment : List Char) : List Char :=
  let url' := if params ≠ [] then url ++ ';' :: params else url
  urlunsplitChars scheme netloc url' query fragment

/- str.rstrip("/") -/
def rstripSlashes (l : List Char) : List Char :=
  (l.reverse.dropWhile (fun c => c = '/')).reverse

/- canonicalize_url from src/src/normalization.py. -/
def canonicalize_url (s : String) : Except String String :=
  match urlparseE s.toList with
  | Except.error e => Except.error e
  | Except.ok (r, _params) =>
    let scheme := if r.scheme = [] then "https".toList else r.scheme
    let netloc := lowerChars r.netloc
    let path := let p := rstripSlashes r.path; if p = [] then ['/'] else p
    let query := urlencodePairs (sortPairs (parse_qsl r.query))
    Except.ok (String.mk (urlunparseChars scheme netloc path [] query []))

/-! ### splitNetloc lemmas -/

def isNetDelim (c : Char) : Bool := c = '/' || c = '?' || c = '#'

/-! ### alphabet of urlencode output -/

def goodQueryChar (c : Char) : Prop :=
  isAlwaysSafe c = true ∨ c = '+' ∨ c = '%' ∨ c = '=' ∨ c = '&'

/-! ### quote/unquote roundtrip -/

/- quote_plus after the plus-to-space replacement of parse_qsl: spaces
   stand for themselves again. -/
def quoteSpChar (c : Char) : List Char :=
  if isAlwaysSafe c then [c]
  else if c = ' ' then [' ']
  else (utf8EncodeChar c).foldr (fun b acc => pctEncodeByte b ++ acc) []

def quoteSp (s : String) : List Char :=
  (s.toList.map quoteSpChar).foldr (fun b acc => b ++ acc) []

/- Side condition of the amended idempotence claim: the input holds no
   semicolon, and parsing does not leave an empty netloc together with a
   canonical path that begins with two slashes. -/
def idemPrecond (u : String) : Bool :=
  !(u.toList.contains ';') &&
  (match urlparseE u.toList with
   | Except.error _ => true
   | Except.ok (r, _) =>
     !(r.netloc.isEmpty) || !((rstripSlashes r.path).take 2 == ['/', '/']))

/-! ### src/src/dedupe.py -/

structure DedupeIndex where
  url_hashes : List (String × String)
  content_hashes : List (String × String)
deriving DecidableEq

def dictContains (m : List (String × String)) (k : String) : Bool :=
  m.any (fun p => p.1 == k)

def dictGet (m : List (String × String)) (k : String) : String :=
  ((m.find? (fun p => p.1 == k)).map Prod.snd).getD ""

/- DedupeIndex.add: the in-place mutation of the two dicts is modeled by
   returning the updated index; canonicalize_url can raise, so the call
   is fallible.  content[:5000] is the 5000-character prefix. -/
def DedupeIndex.add (idx : DedupeIndex) (url content title : String) :
    Except String (Bool × String × DedupeIndex) :=
  match canonicalize_url url with
  | Except.error e => Except.error e
  | Except.ok canonical_url =>
    let title_key := normalize_title title
    let url_key := deterministic_hash [canonical_url]
    let content_key := deterministic_hash [String.mk (content.toList.take 5000), title_key]
    if dictContains idx.url_hashes url_key then
      Except.ok (false, dictGet idx.url_hashes url_key, idx)
    else if dictContains idx.content_hashes content_key then
      Except.ok (false, dictGet idx.content_hashes content_key, idx)
    else
      Except.ok (true, url_key,
        ⟨idx.url_hashes ++ [(url_key, url_key)],
         idx.content_hashes ++ [(content_key, content_key)]⟩)

theorem bucketsGet_bucketsSet (l : List (String × TokenBucket)) (k : String) (b : TokenBucket) :
    bucketsGet (bucketsSet l k b) k = some b := by
  induction l with
  | nil => simp [bucketsGet, bucketsSet]
  | cons hd tl ih =>
    obtain ⟨k', b'⟩ := hd
    by_cases h : k' = k
    · simp [bucketsGet, bucketsSet, h]
    · simp [bucketsGet, bucketsSet, h, ih]

/-- C6: a refill-then-consume step on a token bucket whose state satisfies
0 ≤ tokens ≤ capacity, with non-negative elapsed wall-clock time, a
non-negative refill rate and a non-negative requested amount, leaves the
bucket with 0 ≤ tokens ≤ capacity (and the capacity itself unchanged). -/
theorem consume_preserves_inv (b : TokenBucket) (now amount : ℚ)
    (h0 : 0 ≤ b.tokens) (h1 : b.tokens ≤ b.capacity)
    (helapsed : b.updated_at ≤ now) (hrate : 0 ≤ b.refill_rate) (hamount : 0 ≤ amount) :
    0 ≤ (b.consume now amount).2.tokens ∧
      (b.consume now amount).2.tokens ≤ (b.consume now amount).2.capacity ∧
      (b.consume now amount).2.capacity = b.capacity := by
  have hcap0 : 0 ≤ b.capacity := le_trans h0 h1
  have hrefill0 : 0 ≤ b.tokens + (now - b.updated_at) * b.refill_rate := by nlinarith
  have hmin0 : 0 ≤ min b.capacity (b.tokens + (now - b.updated_at) * b.refill_rate) :=
    le_min hcap0 hrefill0
  have hminc : min b.capacity (b.tokens + (now - b.updated_at) * b.refill_rate) ≤ b.capacity :=
    min_le_left _ _
  simp only [TokenBucket.consume]
  split_ifs with hge
  · dsimp only
    exact ⟨by linarith, by linarith, rfl⟩
  · dsimp only
    exact ⟨hmin0, hminc, rfl⟩

/-- Witness for C6 at a concrete bucket. -/
theorem consume_preserves_inv_witness :
    (0 : ℚ) ≤ 1 ∧
      (0 ≤ ((⟨1, 1, 1/2, 0⟩ : TokenBucket).consume 0 1).2.tokens ∧
        ((⟨1, 1, 1/2, 0⟩ : TokenBucket).consume 0 1).2.tokens ≤
          ((⟨1, 1, 1/2, 0⟩ : TokenBucket).consume 0 1).2.capacity ∧
        ((⟨1, 1, 1/2, 0⟩ : TokenBucket).consume 0 1).2.capacity = 1) :=
  ⟨by norm_num,
    consume_preserves_inv ⟨1, 1, 1/2, 0⟩ 0 1 (by norm_num) (by norm_num)
      (by norm_num) (by norm_num) (by norm_num)⟩

/-- C5: with capacity (burst) 1.0 and refill rate (qps) 0.5 tokens/second, a
key with no existing bucket: the first call at time t returns true, a second
call at the same instant t returns false, and a third call at any time t'
with t' ≥ t + 2 returns true again. -/
theorem allow_fresh_bucket_scenario (rl : RateLimiter) (key : String) (t t' : ℚ)
    (hfresh : bucketsGet rl.buckets key = none)
    (hqps : rl.qps = 1/2) (hburst : rl.burst = 1) (ht : t + 2 ≤ t') :
    (rl.allow key t).1 = true ∧
      ((rl.allow key t).2.allow key t).1 = false ∧
      (((rl.allow key t).2.allow key t).2.allow key t').1 = true := by
  have step1 : rl.allow key t =
      (true, RateLimiter.mk rl.qps rl.burst (bucketsSet rl.buckets key ⟨1, 0, 1/2, t⟩)) := by
    simp only [RateLimiter.allow, hfresh, TokenBucket.consume, hqps, hburst, sub_self,
      zero_mul, add_zero]
    norm_num
  have step2 : ((rl.allow key t).2.allow key t) =
      (false, RateLimiter.mk rl.qps rl.burst
        (bucketsSet (bucketsSet rl.buckets key ⟨1, 0, 1/2, t⟩) key ⟨1, 0, 1/2, t⟩)) := by
    rw [step1]
    simp only [RateLimiter.allow, bucketsGet_bucketsSet, TokenBucket.consume, sub_self,
      zero_mul, add_zero]
    norm_num
  have htokens : min (1 : ℚ) (0 + (t' - t) * (1/2)) = 1 := by
    have : (1 : ℚ) ≤ 0 + (t' - t) * (1/2) := by linarith
    exact min_eq_left this
  have step3 : ((((rl.allow key t).2.allow key t).2.allow key t')).1 = true := by
    rw [step2]
    simp only [RateLimiter.allow, bucketsGet_bucketsSet, TokenBucket.consume]
    rw [htokens]
    norm_num
  exact ⟨by rw [step1], by rw [step2], step3⟩

/-- Witness for C5 at a concrete fresh limiter and concrete times. -/
theorem allow_fresh_bucket_scenario_witness :
    bucketsGet ([] : List (String × TokenBucket)) "h" = none ∧
      ((RateLimiter.mk (1/2) 1 []).allow "h" 0).1 = true ∧
      (((RateLimiter.mk (1/2) 1 []).allow "h" 0).2.allow "h" 0).1 = false ∧
      ((((RateLimiter.mk (1/2) 1 []).allow "h" 0).2.allow "h" 0).2.allow "h" 2).1 = true :=
  ⟨rfl, allow_fresh_bucket_scenario (RateLimiter.mk (1/2) 1 []) "h" 0 2 rfl rfl rfl (by norm_num)⟩

/-- C7 counterexample: on the single title "Launch growth surge" the claim's
per-keyword counter is 3, so the claim demands "positive"; the code adds
only one for the whole title and yields no sentiment hint. -/
theorem sentiment_per_keyword_counterexample :
    sentimentHintPerKeyword [sentimentExampleItem] = some "positive" ∧
      sentiment_hint [sentimentExampleItem] = none := by
  constructor <;> rfl

theorem sentimentStep_eq (score : ℤ) (item : NewsItem) :
    sentimentStep score item = score + sentimentTitleDelta item := by
  simp only [sentimentStep, sentimentTitleDelta]
  split_ifs <;> ring

theorem foldl_sentimentStep (items : List NewsItem) (a : ℤ) :
    items.foldl sentimentStep a = a + (items.map sentimentTitleDelta).sum := by
  induction items generalizing a with
  | nil => simp
  | cons hd tl ih =>
    simp only [List.foldl_cons, List.map_cons, List.sum_cons, ih, sentimentStep_eq]
    ring

/-- C7 amended: the sentiment hint scans all member titles lower-cased
against the fixed keyword sets, moving the counter once per title containing
at least one positive keyword (plus one) and once per title containing at
least one negative keyword (minus one); the result is "positive" when the
counter exceeds 1, "negative" when it is below -1, and absent otherwise. -/
theorem sentiment_hint_per_title (items : List NewsItem) :
    sentiment_hint items =
      (let score : ℤ := (items.map sentimentTitleDelta).sum
       if score > 1 then some "positive"
       else if score < -1 then some "negative"
       else none) := by
  unfold sentiment_hint
  rw [foldl_sentimentStep]
  simp

/- Characterization of the scan: either some cluster is split off as the
   FIRST match (everything before it failing the attachment test), or no
   cluster matches at all. -/
theorem placeIn_spec (sim : String → String → ℚ) (wm : ℤ) (θ : ℚ) (item : NewsItem)
    (l : List ClusterCandidate) :
    (∃ pre c post, l = pre ++ c :: post ∧
        (∀ c' ∈ pre, ¬ attachOk sim wm θ item c') ∧ attachOk sim wm θ item c ∧
        placeIn sim wm θ item (normalize_title item.title) l =
          some (pre ++ c.add item (sim (normalize_title item.title)
            (normalize_title c.canonical_title)) :: post))
    ∨ ((∀ c' ∈ l, ¬ attachOk sim wm θ item c') ∧
        placeIn sim wm θ item (normalize_title item.title) l = none) := by
  induction l with
  | nil => right; exact ⟨by simp, rfl⟩
  | cons c cs ih =>
    by_cases hwin : |item.published_at - c.first_seen| > (wm : ℚ) * 60
    · have hno : ¬ attachOk sim wm θ item c := fun h => h.1 hwin
      have heq : placeIn sim wm θ item (normalize_title item.title) (c :: cs) =
          (placeIn sim wm θ item (normalize_title item.title) cs).map (fun l => c :: l) := by
        simp [placeIn, hwin]
      rcases ih with ⟨pre, c0, post, hsplit, hpre, hc0, hplace⟩ | ⟨hall, hplace⟩
      · left
        refine ⟨c :: pre, c0, post, by simp [hsplit], ?_, hc0, by rw [heq, hplace]; rfl⟩
        intro c' hc'
        rcases List.mem_cons.mp hc' with rfl | h
        · exact hno
        · exact hpre c' h
      · right
        refine ⟨?_, by rw [heq, hplace]; rfl⟩
        intro c' hc'
        rcases List.mem_cons.mp hc' with rfl | h
        · exact hno
        · exact hall c' h
    · by_cases hsim : θ ≤ sim (normalize_title item.title)
        (normalize_title c.canonical_title) / 100
      · left
        exact ⟨[], c, cs, rfl, by simp, ⟨hwin, hsim⟩, by simp [placeIn, hwin, ge_iff_le, hsim]⟩
      · have hno : ¬ attachOk sim wm θ item c := fun h => hsim h.2
        have heq : placeIn sim wm θ item (normalize_title item.title) (c :: cs) =
            (placeIn sim wm θ item (normalize_title item.title) cs).map (fun l => c :: l) := by
          simp [placeIn, hwin, ge_iff_le, hsim]
        rcases ih with ⟨pre, c0, post, hsplit, hpre, hc0, hplace⟩ | ⟨hall, hplace⟩
        · left
          refine ⟨c :: pre, c0, post, by simp [hsplit], ?_, hc0, by rw [heq, hplace]; rfl⟩
          intro c' hc'
          rcases List.mem_cons.mp hc' with rfl | h
          · exact hno
          · exact hpre c' h
        · right
          refine ⟨?_, by rw [heq, hplace]; rfl⟩
          intro c' hc'
          rcases List.mem_cons.mp hc' with rfl | h
          · exact hno
          · exact hall c' h

theorem newCluster_eq (item : NewsItem) :
    (ClusterCandidate.mk item.title [] []).add item 100 =
      ClusterCandidate.mk item.title [item] [100] := by
  norm_num [ClusterCandidate.add, pyMaxD]

/-- C1: in cluster_news, each item is placed by scanning the open clusters
in creation order: either the list splits as pre ++ c :: post where every
cluster of pre fails the attachment test (window on first_seen, similarity
over threshold), c passes it, and the step attaches the item to c alone
(first match wins, scanning stops); or no open cluster passes the test and
the step appends a new cluster with the item as sole member and recorded
similarity 100. -/
theorem cluster_step_first_match (sim : String → String → ℚ) (wm : ℤ) (θ : ℚ)
    (clusters : List ClusterCandidate) (item : NewsItem) :
    (∃ pre c post, clusters = pre ++ c :: post ∧
        (∀ c' ∈ pre, ¬ attachOk sim wm θ item c') ∧ attachOk sim wm θ item c ∧
        clusterStep sim wm θ clusters item =
          pre ++ c.add item (sim (normalize_title item.title)
            (normalize_title c.canonical_title)) :: post)
    ∨ ((∀ c' ∈ clusters, ¬ attachOk sim wm θ item c') ∧
        clusterStep sim wm θ clusters item =
          clusters ++ [ClusterCandidate.mk item.title [item] [100]]) := by
  rcases placeIn_spec sim wm θ item clusters with
    ⟨pre, c, post, h1, h2, h3, h4⟩ | ⟨h1, h2⟩
  · left; exact ⟨pre, c, post, h1, h2, h3, by simp [clusterStep, h4]⟩
  · right; exact ⟨h1, by simp [clusterStep, h2, newCluster_eq]⟩

theorem le_foldl_max (x : ℚ) (l : List ℚ) : x ≤ l.foldl max x := by
  induction l generalizing x with
  | nil => simp
  | cons y ys ih =>
    simp only [List.foldl_cons]
    exact le_trans (le_max_left x y) (ih (max x y))

theorem add_preserves_headTitleInv (c : ClusterCandidate) (item : NewsItem) (s : ℚ)
    (hs : s ≤ 100) (hinv : headTitleInv c) : headTitleInv (c.add item s) := by
  obtain ⟨first, rest, stail, hitems, htitle, hsims⟩ := hinv
  have hmax : (100 : ℚ) ≤ pyMaxD 0 (100 :: stail) := by
    simpa [pyMaxD] using le_foldl_max 100 stail
  have hcond : ¬ (pyMaxD 0 (100 :: stail) < s) := by
    push_neg
    linarith
  refine ⟨first, rest ++ [item], stail ++ [s], ?_, ?_, ?_⟩ <;>
    simp [ClusterCandidate.add, hitems, htitle, hsims, hcond]

theorem clusterStep_preserves_inv (sim : String → String → ℚ) (wm : ℤ) (θ : ℚ)
    (hsim : ∀ a b, sim a b ≤ 100) (clusters : List ClusterCandidate) (item : NewsItem)
    (hinv : ∀ c ∈ clusters, headTitleInv c) :
    ∀ c ∈ clusterStep sim wm θ clusters item, headTitleInv c := by
  rcases placeIn_spec sim wm θ item clusters with
    ⟨pre, c0, post, hsplit, hpre, hc0, hplace⟩ | ⟨hall, hplace⟩
  · intro c hc
    have hstep : clusterStep sim wm θ clusters item =
        pre ++ c0.add item (sim (normalize_title item.title)
          (normalize_title c0.canonical_title)) :: post := by
      simp [clusterStep, hplace]
    rw [hstep] at hc
    rcases List.mem_append.mp hc with h | h
    · exact hinv c (hsplit ▸ List.mem_append_left _ h)
    · rcases List.mem_cons.mp h with rfl | h
      · exact add_preserves_headTitleInv _ _ _ (hsim _ _)
          (hinv c0 (hsplit ▸ List.mem_append_right _ (List.mem_cons_self _ _)))
      · exact hinv c (hsplit ▸ List.mem_append_right _ (List.mem_cons_of_mem _ h))
  · intro c hc
    have hstep : clusterStep sim wm θ clusters item =
        clusters ++ [ClusterCandidate.mk item.title [item] [100]] := by
      simp [clusterStep, hplace, newCluster_eq]
    rw [hstep] at hc
    rcases List.mem_append.mp hc with h | h
    · exact hinv c h
    · rcases List.mem_singleton.mp h with rfl
      exact ⟨item, [], [], rfl, rfl, rfl⟩

theorem cluster_candidates_inv (sim : String → String → ℚ)
    (hsim : ∀ a b, sim a b ≤ 100) (items : List NewsItem) (wm : ℤ) (θ : ℚ) :
    ∀ c ∈ cluster_candidates sim items wm θ, headTitleInv c := by
  suffices h : ∀ (l : List NewsItem) (acc : List ClusterCandidate),
      (∀ c ∈ acc, headTitleInv c) →
      ∀ c ∈ l.foldl (clusterStep sim wm θ) acc, headTitleInv c by
    exact h _ [] (by simp)
  intro l
  induction l with
  | nil => intro acc hacc; simpa using hacc
  | cons x xs ih =>
    intro acc hacc
    exact ih _ (clusterStep_preserves_inv sim wm θ hsim acc x hacc)

/-- C9: provided the fuzzy similarity never exceeds 100, every NewsCluster
produced by cluster_news carries as canonicalTitle the title of the first
member of its candidate (the item that opened the cluster): the opening
similarity 100 can never be strictly exceeded, so the representative
refresh never fires for an attached item. -/
theorem cluster_news_canonical_title_first_member (sim : String → String → ℚ)
    (hsim : ∀ a b, sim a b ≤ 100) (now : ℚ) (items : List NewsItem) (wm : ℤ) (θ : ℚ)
    (origin : String) :
    ∀ cl ∈ cluster_news sim now items wm θ origin,
      ∃ cand first rest, cand ∈ cluster_candidates sim items wm θ ∧
        cl = cand.to_schema now origin ∧ cand.items = first :: rest ∧
        cl.canonical_title = first.title := by
  intro cl hcl
  rw [cluster_news] at hcl
  obtain ⟨cand, hcand, rfl⟩ := List.mem_map.mp hcl
  obtain ⟨first, rest, stail, hitems, htitle, hsims⟩ :=
    cluster_candidates_inv sim hsim items wm θ cand hcand
  exact ⟨cand, first, rest, hcand, rfl, hitems, by
    simpa [ClusterCandidate.to_schema] using htitle⟩

/-- Witness for C9 at a concrete bounded scorer and a concrete item. -/
theorem cluster_news_canonical_title_first_member_witness :
    (∀ a b, simZero a b ≤ 100) ∧
      ∀ cl ∈ cluster_news simZero 0 [clusterExItem] 60 (1/2) "o",
        ∃ cand first rest, cand ∈ cluster_candidates simZero [clusterExItem] 60 (1/2) ∧
          cl = cand.to_schema 0 "o" ∧ cand.items = first :: rest ∧
          cl.canonical_title = first.title :=
  ⟨fun a b => by norm_num [simZero],
    cluster_news_canonical_title_first_member simZero (fun a b => by norm_num [simZero])
      0 [clusterExItem] 60 (1/2) "o"⟩

theorem cluster_candidates_single (sim : String → String → ℚ) (item : NewsItem)
    (wm : ℤ) (θ : ℚ) :
    cluster_candidates sim [item] wm θ = [ClusterCandidate.mk item.title [item] [100]] := by
  simp [cluster_candidates, sortByPublishedAt, insertByPublishedAt, clusterStep, placeIn,
    newCluster_eq]

/-- C3: feeding the clustering engine one NewsItem with windowMinutes 60 and
similarityThreshold 0.5 yields exactly one cluster, with sourceCount 1 and
score equal to (similarityScore/100*100)*0.6 + (sourceScore*10)*0.3 +
freshnessScore*0.1 rounded to two decimals, where similarityScore is 100,
sourceScore the item's source weight (1/2 when unknown) and freshnessScore
the linear 24h decay evaluated at the call instant now. -/
theorem single_item_cluster (sim : String → String → ℚ) (now : ℚ) (origin : String)
    (item : NewsItem) :
    (cluster_news sim now [item] 60 (1/2) origin).length = 1 ∧
      ∀ cl ∈ cluster_news sim now [item] 60 (1/2) origin,
        cl.source_count = 1 ∧
        cl.score = pyRound2 (100 / 100 * 100 * (6/10) +
          sourceWeight item.source * 10 * (3/10) +
          max 0 (1 - ((now - item.published_at) / 60) / 1440) * 100 * (1/10)) := by
  have hcand := cluster_candidates_single sim item 60 (1/2)
  constructor
  · rw [cluster_news, hcand]
    rfl
  · intro cl hcl
    simp only [cluster_news, hcand, List.map_cons, List.map_nil, List.mem_singleton] at hcl
    subst hcl
    constructor
    · simp [ClusterCandidate.to_schema]
    · simp only [ClusterCandidate.to_schema, ClusterCandidate.similarity_score,
        ClusterCandidate.source_score, ClusterCandidate.freshness_score,
        ClusterCandidate.first_seen, SIMILARITY_WEIGHT, SOURCE_WEIGHT, FRESHNESS_WEIGHT]
      norm_num

/-- C2: the code does not isolate per-key storage failures.  With two
records 20 days old (ttl default 14) under news/raw and a delete that fails
on the first key, the non-dry-run sweep aborts with that error instead of
completing - the second expired key is never processed and no result is
returned - while the dry run over the same storage shows both keys expired.
This contradicts the spec requirement that a failure deleting one key must
not abort the sweep of the remaining keys. -/
theorem cleanup_delete_failure_aborts :
    cleanup failingStorage (86400 * 20) false = Except.error "disk failure" ∧
      cleanup failingStorage (86400 * 20) true =
        Except.ok (["news/raw/a.json", "news/raw/b.json"], 0) := by
  constructor <;>
    norm_num [cleanup, cleanupRun, CLEANUP_PREFIXES, sweepKeys, failingStorage]

/- A quick sanity check against the FIPS-180 test vector. -/
theorem sha256_abc_vector :
    sha256Hex (utf8Encode "abc") =
      "ba7816bf8f01cfea414140de5dae2223b00361a396177a9cb410ff61f20015ad" := by decide

/-- C8 counterexample: on parts ["a", " ", "b"] the code keeps the
whitespace-only part (it is truthy) and strips it to "", hashing "a||b",
while the claim's trim-then-filter pipeline hashes "a|b"; the digests
differ. -/
theorem deterministic_hash_trim_order_counterexample :
    deterministic_hash ["a", " ", "b"] ≠ deterministicHashClaimed ["a", " ", "b"] := by
  decide

theorem intercalate_go_eq (s : String) (l : List String) (acc : String) :
    String.intercalate.go acc s l = acc ++ tailJoin s l := by
  induction l generalizing acc with
  | nil => simp [String.intercalate.go, tailJoin]
  | cons y ys ih =>
    rw [String.intercalate.go, ih, tailJoin]
    simp [String.append_assoc]

theorem pyJoin_eq_intercalate (sep : String) (l : List String) :
    pyJoin sep l = String.intercalate sep l := by
  cases l with
  | nil => rfl
  | cons x xs =>
    rw [String.intercalate, intercalate_go_eq]
    induction xs generalizing x with
    | nil => simp [pyJoin, tailJoin]
    | cons y ys ih =>
      rw [pyJoin, tailJoin, ih y]
      simp [String.append_assoc]

theorem filterMap_strip_eq (parts : List String) :
    parts.filterMap (fun p => if p = "" then none else some (pyStrip p)) =
      (parts.filter (fun p => p ≠ "")).map pyStrip := by
  induction parts with
  | nil => rfl
  | cons x xs ih => by_cases h : x = "" <;> simp [List.filterMap_cons, h, ih]

/-- C8 amended: deterministicHash(parts) is the SHA-256 hex digest of the
UTF-8 bytes of the string obtained by keeping the originally non-empty
parts, trimming each of them, and joining with pipes (a part consisting
only of whitespace is kept and contributes an empty segment); as a pure
function of the part list it is deterministic. -/
theorem deterministic_hash_spec (parts : List String) :
    deterministic_hash parts =
      sha256Hex (utf8Encode (String.intercalate "|"
        (parts.filterMap (fun p => if p = "" then none else some (pyStrip p))))) := by
  rw [deterministic_hash, pyJoin_eq_intercalate, filterMap_strip_eq]

/-! ### basic character lemmas -/

theorem toNat_ofNat_valid (n : ℕ) (h : n < 0xd800) : (Char.ofNat n).toNat = n := by
  have hv : n.isValidChar := Or.inl h
  simp [Char.ofNat, hv, Char.ofNatAux, Char.toNat, UInt32.toNat, UInt32.ofNat',
    BitVec.toNat_ofNatLt]

theorem char_eq_iff_toNat (c d : Char) : c = d ↔ c.toNat = d.toNat := by
  constructor
  · intro h; rw [h]
  · intro h
    exact Char.eq_of_val_eq (UInt32.ext h)

theorem toLower_cases (c : Char) :
    c.toLower = c ∨ (65 ≤ c.toNat ∧ c.toNat ≤ 90 ∧ c.toLower.toNat = c.toNat + 32) := by
  unfold Char.toLower
  by_cases h : c.toNat ≥ 65 ∧ c.toNat ≤ 90
  · right
    refine ⟨h.1, h.2, ?_⟩
    simp only [h, if_pos]
    exact toNat_ofNat_valid _ (by omega)
  · left; simp [h]

theorem toLower_of_not_upper (c : Char) (h : ¬(65 ≤ c.toNat ∧ c.toNat ≤ 90)) :
    c.toLower = c := by
  unfold Char.toLower
  simp only [ge_iff_le]
  rw [if_neg h]

theorem toLower_toLower (c : Char) : c.toLower.toLower = c.toLower := by
  rcases toLower_cases c with h | ⟨h1, h2, h3⟩
  · rw [h, h]
  · exact toLower_of_not_upper _ (by omega)

theorem lowerChars_lowerChars (l : List Char) : lowerChars (lowerChars l) = lowerChars l := by
  simp [lowerChars, List.map_map, Function.comp_def, toLower_toLower]

/-! ### breakAtChar lemmas -/

theorem breakAtChar_not_mem (sep : Char) (l : List Char) (h : sep ∉ l) :
    breakAtChar sep l = (l, none) := by
  induction l with
  | nil => rfl
  | cons c rest ih =>
    rw [breakAtChar]
    have hc : ¬ c = sep := fun he => h (he ▸ List.mem_cons_self c rest)
    simp only [hc, if_neg, not_false_iff, ih (fun hm => h (List.mem_cons_of_mem _ hm))]

theorem breakAtChar_append (sep : Char) (a b : List Char) (h : sep ∉ a) :
    breakAtChar sep (a ++ sep :: b) = (a, some b) := by
  induction a with
  | nil => simp [breakAtChar]
  | cons c rest ih =>
    rw [List.cons_append, breakAtChar]
    have hc : ¬ c = sep := fun he => h (he ▸ List.mem_cons_self c rest)
    simp only [hc, if_neg, not_false_iff, ih (fun hm => h (List.mem_cons_of_mem _ hm))]

theorem breakAtChar_fst_not_mem (sep : Char) (l : List Char) :
    sep ∉ (breakAtChar sep l).1 := by
  induction l with
  | nil => simp [breakAtChar]
  | cons c rest ih =>
    rw [breakAtChar]
    by_cases hc : c = sep
    · simp [hc]
    · simp only [hc, if_neg, not_false_iff, List.mem_cons, not_or]
      exact ⟨fun he => hc he.symm, ih⟩

theorem mem_breakAtChar_fst (sep c : Char) (l : List Char)
    (h : c ∈ (breakAtChar sep l).1) : c ∈ l := by
  induction l with
  | nil => simpa [breakAtChar] using h
  | cons d rest ih =>
    rw [breakAtChar] at h
    by_cases hd : d = sep
    · simp [hd] at h
    · simp only [hd, if_neg, not_false_iff] at h
      rcases List.mem_cons.mp h with rfl | h
      · exact List.mem_cons_self _ _
      · exact List.mem_cons_of_mem _ (ih h)

theorem mem_breakAtChar_snd (sep c : Char) (l t : List Char)
    (h : (breakAtChar sep l).2 = some t) (hc : c ∈ t) : c ∈ l := by
  induction l with
  | nil => simp [breakAtChar] at h
  | cons d rest ih =>
    rw [breakAtChar] at h
    by_cases hd : d = sep
    · simp only [hd, if_pos] at h
      cases h
      exact List.mem_cons_of_mem _ hc
    · simp only [hd, if_neg, not_false_iff] at h
      exact List.mem_cons_of_mem _ (ih h)

theorem splitNetloc_eq (l : List Char) :
    splitNetloc l = (l.takeWhile (fun c => !(isNetDelim c)), l.dropWhile (fun c => !(isNetDelim c))) := by
  induction l with
  | nil => rfl
  | cons c rest ih =>
    rw [splitNetloc]
    by_cases hc : c = '/' || c = '?' || c = '#'
    · have : isNetDelim c = true := hc
      simp [List.takeWhile_cons, List.dropWhile_cons, this, hc]
    · have : isNetDelim c = false := by simpa [isNetDelim] using hc
      simp [List.takeWhile_cons, List.dropWhile_cons, this, hc, ih]

theorem splitNetloc_fst_no_delim (l : List Char) :
    ∀ c ∈ (splitNetloc l).1, isNetDelim c = false := by
  rw [splitNetloc_eq]
  intro c hc
  have := List.mem_takeWhile_imp hc
  simpa using this

theorem mem_splitNetloc_fst (c : Char) (l : List Char)
    (h : c ∈ (splitNetloc l).1) : c ∈ l := by
  rw [splitNetloc_eq] at h
  exact (List.takeWhile_sublist _).subset h

theorem mem_splitNetloc_snd (c : Char) (l : List Char)
    (h : c ∈ (splitNetloc l).2) : c ∈ l := by
  rw [splitNetloc_eq] at h
  exact (List.dropWhile_sublist _).subset h

theorem splitNetloc_append (a b : List Char) (ha : ∀ c ∈ a, isNetDelim c = false)
    (hb : b = [] ∨ ∃ c t, b = c :: t ∧ isNetDelim c = true) :
    splitNetloc (a ++ b) = (a, b) := by
  induction a with
  | nil =>
    rcases hb with rfl | ⟨c, t, rfl, hc⟩
    · rfl
    · rw [List.nil_append, splitNetloc]
      have : (c = '/' || c = '?' || c = '#') = true := hc
      simp [this]
  | cons d rest ih =>
    rw [List.cons_append, splitNetloc]
    have hd : isNetDelim d = false := ha d (List.mem_cons_self _ _)
    have hd' : (d = '/' || d = '?' || d = '#') = false := hd
    simp only [hd', Bool.false_eq_true, if_neg, not_false_iff]
    rw [ih (fun c hc => ha c (List.mem_cons_of_mem _ hc))]

theorem char_le_iff (a b : Char) : a ≤ b ↔ a.toNat ≤ b.toNat := Iff.rfl

theorem char_lt_iff (a b : Char) : a < b ↔ a.toNat < b.toNat := Iff.rfl

theorem isAlpha_toNat (c : Char) (h : c.isAlpha = true) :
    (65 ≤ c.toNat ∧ c.toNat ≤ 90) ∨ (97 ≤ c.toNat ∧ c.toNat ≤ 122) := by
  simp only [Char.isAlpha, Char.isUpper, Char.isLower, Bool.or_eq_true,
    Bool.and_eq_true, decide_eq_true_eq] at h
  rcases h with ⟨h1, h2⟩ | ⟨h1, h2⟩
  · exact Or.inl ⟨h1, h2⟩
  · exact Or.inr ⟨h1, h2⟩

theorem isDigit_toNat (c : Char) (h : c.isDigit = true) :
    48 ≤ c.toNat ∧ c.toNat ≤ 57 := by
  simp only [Char.isDigit, Bool.and_eq_true, decide_eq_true_eq] at h
  exact ⟨h.1, h.2⟩

/- The characters isAlwaysSafe accepts, in code point terms. -/
theorem isAlwaysSafe_toNat (c : Char) (h : isAlwaysSafe c = true) :
    (65 ≤ c.toNat ∧ c.toNat ≤ 90) ∨ (97 ≤ c.toNat ∧ c.toNat ≤ 122) ∨
      (48 ≤ c.toNat ∧ c.toNat ≤ 57) ∨ c.toNat = 95 ∨ c.toNat = 46 ∨
      c.toNat = 45 ∨ c.toNat = 126 := by
  simp only [isAlwaysSafe, Bool.or_eq_true, decide_eq_true_eq] at h
  rcases h with ((((ha | hd) | h_) | hp) | hm) | ht
  · rcases isAlpha_toNat c ha with h | h
    · exact Or.inl h
    · exact Or.inr (Or.inl h)
  · exact Or.inr (Or.inr (Or.inl (isDigit_toNat c hd)))
  · exact Or.inr (Or.inr (Or.inr (Or.inl (by rw [h_]; rfl))))
  · exact Or.inr (Or.inr (Or.inr (Or.inr (Or.inl (by rw [hp]; rfl)))))
  · exact Or.inr (Or.inr (Or.inr (Or.inr (Or.inr (Or.inl (by rw [hm]; rfl))))))
  · exact Or.inr (Or.inr (Or.inr (Or.inr (Or.inr (Or.inr (by rw [ht]; rfl))))))

theorem mem_foldr_append {α β : Type} (f : α → List β) (l : List α) (c : β) :
    c ∈ l.foldr (fun b acc => f b ++ acc) [] ↔ ∃ b ∈ l, c ∈ f b := by
  induction l with
  | nil => simp
  | cons x xs ih => simp [List.mem_append, ih]

theorem char_toNat_lt (c : Char) : c.toNat < 1114112 := by
  have h := c.valid
  unfold UInt32.isValidChar Nat.isValidChar at h
  have he : c.toNat = c.val.toNat := rfl
  rcases h with h | ⟨h1, h2⟩ <;> omega

theorem utf8EncodeChar_bytes_lt (c : Char) : ∀ b ∈ utf8EncodeChar c, b < 256 := by
  intro b hb
  have hv := char_toNat_lt c
  simp only [utf8EncodeChar] at hb
  split_ifs at hb <;> simp at hb <;> omega

theorem hexDigitU_safe (n : ℕ) (h : n < 16) : isAlwaysSafe (hexDigitU n) = true := by
  interval_cases n <;> decide

theorem pctEncodeByte_good (b : ℕ) (hb : b < 256) :
    ∀ c ∈ pctEncodeByte b, goodQueryChar c := by
  intro c hc
  unfold pctEncodeByte at hc
  rcases List.mem_cons.mp hc with rfl | hc
  · exact Or.inr (Or.inr (Or.inl rfl))
  · rcases List.mem_cons.mp hc with rfl | hc
    · exact Or.inl (hexDigitU_safe _ (by omega))
    · rcases List.mem_cons.mp hc with rfl | hc
      · exact Or.inl (hexDigitU_safe _ (by omega))
      · simp at hc

theorem pctEncodeByte_mem (b : ℕ) (hb : b < 256) :
    ∀ c ∈ pctEncodeByte b, isAlwaysSafe c = true ∨ c = '%' := by
  intro c hc
  unfold pctEncodeByte at hc
  rcases List.mem_cons.mp hc with rfl | hc
  · exact Or.inr rfl
  · rcases List.mem_cons.mp hc with rfl | hc
    · exact Or.inl (hexDigitU_safe _ (by omega))
    · rcases List.mem_cons.mp hc with rfl | hc
      · exact Or.inl (hexDigitU_safe _ (by omega))
      · simp at hc

theorem quotePlusChar_good (d : Char) : ∀ c ∈ quotePlusChar d, goodQueryChar c := by
  intro c hc
  unfold quotePlusChar at hc
  split_ifs at hc with h1 h2
  · rcases List.mem_singleton.mp hc with rfl
    exact Or.inl h1
  · rcases List.mem_singleton.mp hc with rfl
    exact Or.inr (Or.inl rfl)
  · obtain ⟨b, hb, hcb⟩ := (mem_foldr_append pctEncodeByte _ c).mp hc
    exact pctEncodeByte_good b (utf8EncodeChar_bytes_lt d b hb) c hcb

theorem quotePlus_good (s : String) : ∀ c ∈ quotePlus s, goodQueryChar c := by
  intro c hc
  unfold quotePlus at hc
  obtain ⟨piece, hp, hcp⟩ := (mem_foldr_append (fun b => b) _ c).mp hc
  obtain ⟨d, _, rfl⟩ := List.mem_map.mp hp
  exact quotePlusChar_good d c hcp

theorem goodQueryChar_toNat (c : Char) (h : goodQueryChar c) :
    (65 ≤ c.toNat ∧ c.toNat ≤ 90) ∨ (97 ≤ c.toNat ∧ c.toNat ≤ 122) ∨
      (48 ≤ c.toNat ∧ c.toNat ≤ 57) ∨ c.toNat = 95 ∨ c.toNat = 46 ∨
      c.toNat = 45 ∨ c.toNat = 126 ∨ c.toNat = 43 ∨ c.toNat = 37 ∨
      c.toNat = 61 ∨ c.toNat = 38 := by
  rcases h with h | rfl | rfl | rfl | rfl
  · rcases isAlwaysSafe_toNat c h with h | h | h | h | h | h | h <;> tauto
  all_goals simp

/- urlencode output never contains the structural URL delimiters. -/
theorem goodQueryChar_not_delim (c : Char) (h : goodQueryChar c) :
    c ≠ '?' ∧ c ≠ '#' ∧ c ≠ ';' ∧ c ≠ ':' ∧ c ≠ '/' ∧
      isUnsafeUrlByte c = false ∧ isC0OrSpace c = false := by
  have ht := goodQueryChar_toNat c h
  refine ⟨?_, ?_, ?_, ?_, ?_, ?_, ?_⟩
  · intro he; rw [char_eq_iff_toNat] at he; simp at he; omega
  · intro he; rw [char_eq_iff_toNat] at he; simp at he; omega
  · intro he; rw [char_eq_iff_toNat] at he; simp at he; omega
  · intro he; rw [char_eq_iff_toNat] at he; simp at he; omega
  · intro he; rw [char_eq_iff_toNat] at he; simp at he; omega
  · simp only [isUnsafeUrlByte, Bool.or_eq_false_iff, decide_eq_false_iff_not]
    refine ⟨⟨?_, ?_⟩, ?_⟩ <;>
      { intro he; rw [char_eq_iff_toNat] at he; simp at he; omega }
  · simp only [isC0OrSpace, decide_eq_false_iff_not]
    omega

theorem dropWhile_head_false (p : Char → Bool) (l : List Char) (x : Char) (t : List Char)
    (h : l.dropWhile p = x :: t) : p x = false := by
  induction l with
  | nil => simp at h
  | cons d rest ih =>
    rw [List.dropWhile_cons] at h
    by_cases hd : p d
    · simp only [hd, if_pos] at h
      exact ih h
    · simp only [hd, Bool.false_eq_true, if_neg, not_false_iff] at h
      cases h
      simpa using hd

theorem dropWhile_idem (p : Char → Bool) (l : List Char) :
    (l.dropWhile p).dropWhile p = l.dropWhile p := by
  cases h : l.dropWhile p with
  | nil => simp
  | cons x t =>
    rw [List.dropWhile_cons, dropWhile_head_false p l x t h]
    simp

theorem rstripSlashes_idem (l : List Char) :
    rstripSlashes (rstripSlashes l) = rstripSlashes l := by
  unfold rstripSlashes
  rw [List.reverse_reverse, dropWhile_idem]

theorem mem_rstripSlashes (c : Char) (l : List Char) (h : c ∈ rstripSlashes l) : c ∈ l := by
  unfold rstripSlashes at h
  have := (List.dropWhile_sublist _).subset (List.mem_reverse.mp h)
  exact List.mem_reverse.mp this

/- rstrip of a slash-headed list whose body is already stripped. -/
theorem rstripSlashes_cons_slash (l : List Char) (hl : l ≠ [])
    (h : rstripSlashes l = l) : rstripSlashes ('/' :: l) = '/' :: l := by
  unfold rstripSlashes at *
  rw [List.reverse_cons]
  cases hr : l.reverse with
  | nil => exact absurd (by simpa using congrArg List.reverse hr) hl
  | cons x t =>
    have h2 : List.dropWhile (fun c => decide (c = '/')) (x :: t) = x :: t := by
      have h3 := congrArg List.reverse h
      rw [List.reverse_reverse] at h3
      rw [hr] at h3
      exact h3
    have hx := dropWhile_head_false (fun c => decide (c = '/')) (x :: t) x t h2
    have hl2 : l = (x :: t).reverse := by rw [← hr, List.reverse_reverse]
    rw [List.cons_append, List.dropWhile_cons]
    simp only at hx
    rw [hx]
    simp [hl2]

theorem mem_sanitizeUrl (c : Char) (l : List Char) (h : c ∈ sanitizeUrl l) :
    c ∈ l ∧ isUnsafeUrlByte c = false := by
  unfold sanitizeUrl at h
  have h2 := List.mem_filter.mp h
  exact ⟨(List.dropWhile_sublist _).subset h2.1, by simpa using h2.2⟩

theorem isSchemeChar_facts (c : Char) (h : isSchemeChar c = true) :
    c ≠ ':' ∧ isUnsafeUrlByte c = false := by
  have ht : (65 ≤ c.toNat ∧ c.toNat ≤ 90) ∨ (97 ≤ c.toNat ∧ c.toNat ≤ 122) ∨
      (48 ≤ c.toNat ∧ c.toNat ≤ 57) ∨ c.toNat = 43 ∨ c.toNat = 45 ∨ c.toNat = 46 := by
    simp only [isSchemeChar, Bool.or_eq_true] at h
    rcases h with (((ha | hd) | hp) | hm) | hdot
    · rcases isAlpha_toNat c ha with h | h <;> tauto
    · have := isDigit_toNat c hd; tauto
    · simp only [decide_eq_true_eq] at hp; rw [hp]; simp
    · simp only [decide_eq_true_eq] at hm; rw [hm]; simp
    · simp only [decide_eq_true_eq] at hdot; rw [hdot]; simp
  constructor
  · intro he; rw [char_eq_iff_toNat] at he; simp at he; omega
  · simp only [isUnsafeUrlByte, Bool.or_eq_false_iff, decide_eq_false_iff_not]
    refine ⟨⟨?_, ?_⟩, ?_⟩ <;>
      { intro he; rw [char_eq_iff_toNat] at he; simp at he; omega }

theorem isAlpha_of_lower_range (c : Char) (h1 : 97 ≤ c.toNat) (h2 : c.toNat ≤ 122) :
    c.isAlpha = true := by
  simp only [Char.isAlpha, Char.isUpper, Char.isLower, Bool.or_eq_true, Bool.and_eq_true,
    decide_eq_true_eq]
  exact Or.inr ⟨h1, h2⟩

theorem toLower_isAlpha (c : Char) (h : c.isAlpha = true) : c.toLower.isAlpha = true := by
  rcases toLower_cases c with hc | ⟨h1, h2, h3⟩
  · rw [hc]; exact h
  · exact isAlpha_of_lower_range _ (by omega) (by omega)

theorem toLower_isSchemeChar (c : Char) (h : isSchemeChar c = true) :
    isSchemeChar c.toLower = true := by
  rcases toLower_cases c with hc | ⟨h1, h2, h3⟩
  · rw [hc]; exact h
  · simp only [isSchemeChar, Bool.or_eq_true]
    exact Or.inl (Or.inl (Or.inl (Or.inl (isAlpha_of_lower_range _ (by omega) (by omega)))))

theorem hexVal_hexDigitU (n : ℕ) (h : n < 16) : hexVal (hexDigitU n) = some n := by
  interval_cases n <;> decide

theorem hexDigitU_ne_pct (n : ℕ) (h : n < 16) : hexDigitU n ≠ '%' := by
  interval_cases n <;> decide

theorem unquoteTokens_pct (bs : List ℕ) (hbs : ∀ b ∈ bs, b < 256) (rest : List Char) :
    unquoteTokens ((bs.foldr (fun b acc => pctEncodeByte b ++ acc) []) ++ rest) =
      bs.map Sum.inl ++ unquoteTokens rest := by
  induction bs with
  | nil => simp
  | cons b bs ih =>
    have hb : b < 256 := hbs b (List.mem_cons_self _ _)
    have h1 : b / 16 < 16 := by omega
    have h2 : b % 16 < 16 := by omega
    have hrest := ih (fun x hx => hbs x (List.mem_cons_of_mem _ hx))
    have hshape : (pctEncodeByte b ++ List.foldr (fun b acc => pctEncodeByte b ++ acc) [] bs) ++ rest =
        '%' :: hexDigitU (b / 16) :: hexDigitU (b % 16) ::
          (List.foldr (fun b acc => pctEncodeByte b ++ acc) [] bs ++ rest) := by
      simp [pctEncodeByte]
    have step : unquoteTokens ((pctEncodeByte b ++
        List.foldr (fun b acc => pctEncodeByte b ++ acc) [] bs) ++ rest) =
        Sum.inl b :: unquoteTokens
          (List.foldr (fun b acc => pctEncodeByte b ++ acc) [] bs ++ rest) := by
      rw [hshape, unquoteTokens, hexVal_hexDigitU _ h1, hexVal_hexDigitU _ h2]
      have hbb : b / 16 * 16 + b % 16 = b := by omega
      dsimp only
      rw [hbb]
    simp only [List.foldr_cons]
    rw [step, hrest]
    simp

theorem isAlwaysSafe_ne_pct (c : Char) (h : isAlwaysSafe c = true) : c ≠ '%' := by
  have := isAlwaysSafe_toNat c h
  intro he; rw [char_eq_iff_toNat] at he; simp at he; omega

theorem isAlwaysSafe_ascii (c : Char) (h : isAlwaysSafe c = true) : isAsciiChar c = true := by
  have := isAlwaysSafe_toNat c h
  simp only [isAsciiChar, decide_eq_true_eq]
  omega

theorem unquoteTokens_cons_notpct (c : Char) (rest : List Char) (hc : c ≠ '%')
    (hascii : isAsciiChar c = true) :
    unquoteTokens (c :: rest) = Sum.inl c.toNat :: unquoteTokens rest := by
  rw [unquoteTokens.eq_def]
  split
  · simp_all
  · simp_all
  · simp_all
  · simp_all

theorem unquoteTokens_quoteSpChar (c : Char) (rest : List Char) :
    unquoteTokens (quoteSpChar c ++ rest) =
      (utf8EncodeChar c).map Sum.inl ++ unquoteTokens rest := by
  unfold quoteSpChar
  split_ifs with h1 h2
  · have hlt : c.toNat < 128 := by
      have := isAlwaysSafe_toNat c h1
      omega
    have henc : utf8EncodeChar c = [c.toNat] := by
      simp [utf8EncodeChar, hlt]
    rw [henc, List.singleton_append,
      unquoteTokens_cons_notpct c rest (isAlwaysSafe_ne_pct c h1) (isAlwaysSafe_ascii c h1)]
    rfl
  · subst h2
    have henc : utf8EncodeChar ' ' = [32] := by decide
    rw [henc, List.singleton_append,
      unquoteTokens_cons_notpct ' ' rest (by decide) (by decide)]
    rfl
  · exact unquoteTokens_pct (utf8EncodeChar c) (utf8EncodeChar_bytes_lt c) rest

theorem plusToSpace_quotePlus (s : String) : plusToSpace (quotePlus s) = quoteSp s := by
  unfold quotePlus quoteSp plusToSpace
  induction s.toList with
  | nil => rfl
  | cons c cs ih =>
    simp only [List.map_cons, List.foldr_cons, List.map_append, ih]
    congr 1
    unfold quotePlusChar quoteSpChar
    split_ifs with h1 h2
    · have : c ≠ '+' := by
        have := isAlwaysSafe_toNat c h1
        intro he; rw [char_eq_iff_toNat] at he; simp at he; omega
      simp [this]
    · simp
    · have hall : ∀ x ∈ List.foldr (fun b acc => pctEncodeByte b ++ acc) [] (utf8EncodeChar c),
          (fun c => if c = '+' then ' ' else c) x = id x := by
        intro x hx
        obtain ⟨b, hb, hxb⟩ := (mem_foldr_append pctEncodeByte _ x).mp hx
        have hb256 := utf8EncodeChar_bytes_lt c b hb
        have hxp : x ≠ '+' := by
          rcases pctEncodeByte_mem b hb256 x hxb with hs | h
          · have := isAlwaysSafe_toNat x hs
            intro he; rw [char_eq_iff_toNat] at he; simp at he; omega
          · subst h; decide
        simp [hxp]
      rw [List.map_congr_left hall, List.map_id]

theorem toNat_ofNat_validChar (n : ℕ) (h : n.isValidChar) : (Char.ofNat n).toNat = n := by
  simp [Char.ofNat, h, Char.ofNatAux, Char.toNat, UInt32.toNat, UInt32.ofNat',
    BitVec.toNat_ofNatLt]

theorem ofNat_toNat (c : Char) : Char.ofNat c.toNat = c := by
  rw [char_eq_iff_toNat]
  exact toNat_ofNat_validChar _ c.valid

theorem char_valid_ranges (c : Char) :
    c.toNat < 55296 ∨ (57344 ≤ c.toNat ∧ c.toNat < 1114112) := by
  have h := c.valid
  unfold UInt32.isValidChar Nat.isValidChar at h
  have he : c.toNat = c.val.toNat := rfl
  rcases h with h | ⟨h1, h2⟩
  · left; omega
  · right; omega

theorem decode_encodeChar (c : Char) (ts : List (ℕ ⊕ Char)) :
    decodeTokensAux [] ((utf8EncodeChar c).map Sum.inl ++ ts) = c :: decodeTokensAux [] ts := by
  have hvr := char_valid_ranges c
  by_cases h1 : c.toNat < 0x80
  · have henc : utf8EncodeChar c = [c.toNat] := by
      unfold utf8EncodeChar; dsimp only; rw [if_pos h1]
    rw [henc]
    simp only [List.map_cons, List.map_nil, List.singleton_append]
    rw [decodeTokensAux]
    simp only [utf8Step, utf8StepEmpty, if_pos h1, ofNat_toNat]
    rfl
  · by_cases h2 : c.toNat < 0x800
    · have henc : utf8EncodeChar c = [0xc0 + c.toNat / 64, 0x80 + c.toNat % 64] := by
        unfold utf8EncodeChar; dsimp only; rw [if_neg h1, if_pos h2]
      have e1 : ¬ (0xc0 + c.toNat / 64 < 0x80) := by omega
      have e2 : ¬ (0xc0 + c.toNat / 64 < 0xc2) := by omega
      have e3 : 0xc0 + c.toNat / 64 < 0xf5 := by omega
      have e4 : (0xc0 + c.toNat / 64) ≠ 0xe0 := by omega
      have e5 : (0xc0 + c.toNat / 64) ≠ 0xed := by omega
      have e6 : (0xc0 + c.toNat / 64) ≠ 0xf0 := by omega
      have e7 : (0xc0 + c.toNat / 64) ≠ 0xf4 := by omega
      have e8 : isContB (0x80 + c.toNat % 64) = true := by
        simp only [isContB, Bool.and_eq_true, decide_eq_true_eq]; omega
      have e9 : 0xc0 + c.toNat / 64 < 0xe0 := by omega
      have e10 : (0xc0 + c.toNat / 64 - 0xc0) * 64 + (0x80 + c.toNat % 64 - 0x80) = c.toNat := by
        omega
      rw [henc]
      simp only [List.map_cons, List.map_nil, List.cons_append, List.nil_append]
      rw [decodeTokensAux]
      simp only [utf8Step, utf8StepEmpty, if_neg e1, if_neg e2, if_pos e3]
      rw [decodeTokensAux]
      simp only [utf8Step, validSecond, if_neg e4, if_neg e5, if_neg e6, if_neg e7, e8,
        if_pos e9, if_pos rfl, e10, ofNat_toNat]
      rfl
    · by_cases h3 : c.toNat < 0x10000
      · have henc : utf8EncodeChar c =
            [0xe0 + c.toNat / 4096, 0x80 + c.toNat / 64 % 64, 0x80 + c.toNat % 64] := by
          unfold utf8EncodeChar; dsimp only; rw [if_neg h1, if_neg h2, if_pos h3]
        have e1 : ¬ (0xe0 + c.toNat / 4096 < 0x80) := by omega
        have e2 : ¬ (0xe0 + c.toNat / 4096 < 0xc2) := by omega
        have e3 : 0xe0 + c.toNat / 4096 < 0xf5 := by omega
        have e4 : validSecond (0xe0 + c.toNat / 4096) (0x80 + c.toNat / 64 % 64) = true := by
          simp only [validSecond, isContB]
          split_ifs with hx1 hx2 hx3 hx4 <;>
            simp only [Bool.and_eq_true, decide_eq_true_eq] <;> omega
        have e5 : ¬ (0xe0 + c.toNat / 4096 < 0xe0) := by omega
        have e6 : isContB (0x80 + c.toNat % 64) = true := by
          simp only [isContB, Bool.and_eq_true, decide_eq_true_eq]; omega
        have e7 : 0xe0 + c.toNat / 4096 < 0xf0 := by omega
        have e8 : (0xe0 + c.toNat / 4096 - 0xe0) * 4096 + (0x80 + c.toNat / 64 % 64 - 0x80) * 64 +
            (0x80 + c.toNat % 64 - 0x80) = c.toNat := by omega
        rw [henc]
        simp only [List.map_cons, List.map_nil, List.cons_append, List.nil_append]
        rw [decodeTokensAux]
        simp only [utf8Step, utf8StepEmpty, if_neg e1, if_neg e2, if_pos e3]
        rw [decodeTokensAux]
        simp only [utf8Step, e4, if_pos, if_neg e5]
        rw [decodeTokensAux]
        simp only [utf8Step, e6, if_pos, if_pos e7, e8, ofNat_toNat]
        rfl
      · have henc : utf8EncodeChar c =
            [0xf0 + c.toNat / 262144, 0x80 + c.toNat / 4096 % 64,
             0x80 + c.toNat / 64 % 64, 0x80 + c.toNat % 64] := by
          unfold utf8EncodeChar; dsimp only; rw [if_neg h1, if_neg h2, if_neg h3]
        have e1 : ¬ (0xf0 + c.toNat / 262144 < 0x80) := by omega
        have e2 : ¬ (0xf0 + c.toNat / 262144 < 0xc2) := by omega
        have e3 : 0xf0 + c.toNat / 262144 < 0xf5 := by omega
        have e4 : validSecond (0xf0 + c.toNat / 262144) (0x80 + c.toNat / 4096 % 64) = true := by
          simp only [validSecond, isContB]
          split_ifs with hx1 hx2 hx3 hx4 <;>
            simp only [Bool.and_eq_true, decide_eq_true_eq] <;> omega
        have e5 : ¬ (0xf0 + c.toNat / 262144 < 0xe0) := by omega
        have e6 : isContB (0x80 + c.toNat / 64 % 64) = true := by
          simp only [isContB, Bool.and_eq_true, decide_eq_true_eq]; omega
        have e7 : ¬ (0xf0 + c.toNat / 262144 < 0xf0) := by omega
        have e8 : isContB (0x80 + c.toNat % 64) = true := by
          simp only [isContB, Bool.and_eq_true, decide_eq_true_eq]; omega
        have e9 : (0xf0 + c.toNat / 262144 - 0xf0) * 262144 +
            (0x80 + c.toNat / 4096 % 64 - 0x80) * 4096 +
            (0x80 + c.toNat / 64 % 64 - 0x80) * 64 + (0x80 + c.toNat % 64 - 0x80) = c.toNat := by
          omega
        rw [henc]
        simp only [List.map_cons, List.map_nil, List.cons_append, List.nil_append]
        rw [decodeTokensAux]
        simp only [utf8Step, utf8StepEmpty, if_neg e1, if_neg e2, if_pos e3]
        rw [decodeTokensAux]
        simp only [utf8Step, e4, if_pos, if_neg e5]
        rw [decodeTokensAux]
        simp only [utf8Step, e6, if_pos, if_neg e7]
        rw [decodeTokensAux]
        simp only [utf8Step, e8, if_pos, e9, ofNat_toNat]
        rfl

theorem unquoteTokens_quoteSp_list (l : List Char) (rest : List Char) :
    unquoteTokens ((l.map quoteSpChar).foldr (fun b acc => b ++ acc) [] ++ rest) =
      ((l.map utf8EncodeChar).foldr (fun b acc => b ++ acc) []).map Sum.inl ++
        unquoteTokens rest := by
  induction l with
  | nil => simp
  | cons c cs ih =>
    simp only [List.map_cons, List.foldr_cons, List.append_assoc, List.map_append]
    rw [unquoteTokens_quoteSpChar, ih]

theorem decode_encode_list (l : List Char) (ts : List (ℕ ⊕ Char)) :
    decodeTokensAux [] (((l.map utf8EncodeChar).foldr (fun b acc => b ++ acc) []).map Sum.inl
        ++ ts) = l ++ decodeTokensAux [] ts := by
  induction l with
  | nil => simp
  | cons c cs ih =>
    simp only [List.map_cons, List.foldr_cons, List.map_append, List.append_assoc]
    rw [decode_encodeChar, ih]
    simp

theorem unquote_plusToSpace_quotePlus (s : String) :
    unquoteChars (plusToSpace (quotePlus s)) = s.toList := by
  rw [plusToSpace_quotePlus]
  unfold unquoteChars quoteSp decodeTokens
  have h1 := unquoteTokens_quoteSp_list s.toList []
  have h2 := decode_encode_list s.toList []
  simp only [unquoteTokens, List.append_nil] at h1 h2
  rw [h1, h2]
  simp [decodeTokensAux, utf8Flush]

/-! ### parse_qsl of urlencode -/

theorem quotePlusChar_ne_nil (c : Char) : quotePlusChar c ≠ [] := by
  unfold quotePlusChar
  split_ifs with h1 h2
  · simp
  · simp
  · have : utf8EncodeChar c ≠ [] := by
      unfold utf8EncodeChar
      dsimp only
      split_ifs <;> simp
    cases he : utf8EncodeChar c with
    | nil => exact absurd he this
    | cons b bs => simp [he, pctEncodeByte]

theorem quotePlus_nil_iff (s : String) : quotePlus s = [] ↔ s = "" := by
  constructor
  · intro h
    cases hs : s.toList with
    | nil =>
      cases s with
      | mk data =>
        simp only [String.toList] at hs
        rw [hs]
    | cons c cs =>
      unfold quotePlus at h
      rw [hs] at h
      simp only [List.map_cons, List.foldr_cons] at h
      exact absurd (List.append_eq_nil.mp h).1 (quotePlusChar_ne_nil c)
  · intro h; rw [h]; rfl

theorem quotePlus_tight (s : String) :
    ∀ c ∈ quotePlus s, isAlwaysSafe c = true ∨ c = '+' ∨ c = '%' := by
  intro c hc
  unfold quotePlus at hc
  obtain ⟨piece, hp, hcp⟩ := (mem_foldr_append (fun b => b) _ c).mp hc
  obtain ⟨d, _, rfl⟩ := List.mem_map.mp hp
  unfold quotePlusChar at hcp
  split_ifs at hcp with h1 h2
  · rcases List.mem_singleton.mp hcp with rfl
    exact Or.inl h1
  · rcases List.mem_singleton.mp hcp with rfl
    exact Or.inr (Or.inl rfl)
  · obtain ⟨b, hb, hxb⟩ := (mem_foldr_append pctEncodeByte _ c).mp hcp
    rcases pctEncodeByte_mem b (utf8EncodeChar_bytes_lt d b hb) c hxb with h | h
    · exact Or.inl h
    · exact Or.inr (Or.inr h)

theorem quotePlus_tight_ne (s : String) (d : Char) (hd : isAlwaysSafe d = false)
    (hp : d ≠ '+') (hpc : d ≠ '%') : d ∉ quotePlus s := by
  intro hmem
  rcases quotePlus_tight s d hmem with h | h | h
  · rw [hd] at h; exact absurd h (by simp)
  · exact hp h
  · exact hpc h

theorem splitOn_not_mem (sep : Char) (l : List Char) (h : sep ∉ l) :
    splitOn sep l = [l] := by
  induction l with
  | nil => rfl
  | cons c rest ih =>
    rw [splitOn]
    have hc : ¬ c = sep := fun he => h (he ▸ List.mem_cons_self c rest)
    rw [if_neg hc, ih (fun hm => h (List.mem_cons_of_mem _ hm))]

theorem splitOn_sep_append (sep : Char) (a t : List Char) (h : sep ∉ a) :
    splitOn sep (a ++ sep :: t) = a :: splitOn sep t := by
  induction a with
  | nil => simp [splitOn]
  | cons c rest ih =>
    rw [List.cons_append, splitOn]
    have hc : ¬ c = sep := fun he => h (he ▸ List.mem_cons_self c rest)
    rw [if_neg hc, ih (fun hm => h (List.mem_cons_of_mem _ hm))]

theorem splitOn_joinChars (sep : Char) (segs : List (List Char)) (hne : segs ≠ [])
    (hfree : ∀ s ∈ segs, sep ∉ s) : splitOn sep (joinChars sep segs) = segs := by
  induction segs with
  | nil => exact absurd rfl hne
  | cons x xs ih =>
    cases xs with
    | nil =>
      rw [joinChars]
      exact splitOn_not_mem sep x (hfree x (List.mem_cons_self _ _))
    | cons y ys =>
      rw [joinChars, splitOn_sep_append sep x _ (hfree x (List.mem_cons_self _ _)),
        ih (by simp) (fun s hs => hfree s (List.mem_cons_of_mem _ hs))]

theorem eq_not_mem_quotePlus (s : String) : '=' ∉ quotePlus s :=
  quotePlus_tight_ne s '=' (by decide) (by decide) (by decide)

theorem amp_not_mem_quotePlus (s : String) : '&' ∉ quotePlus s :=
  quotePlus_tight_ne s '&' (by decide) (by decide) (by decide)

theorem seg_ne_nil (k v : String) : quotePlus k ++ '=' :: quotePlus v ≠ [] := by
  intro h
  exact absurd (List.append_eq_nil.mp h).2 (by simp)

theorem qsl_fold_segments (pairs : List (String × String)) (hv : ∀ p ∈ pairs, p.2 ≠ "") :
    (pairs.map (fun p => quotePlus p.1 ++ '=' :: quotePlus p.2)).foldr (fun nv acc =>
      if nv = [] then acc
      else
        match breakAtChar '=' nv with
        | (_, none) => acc
        | (name, some value) =>
          if value = [] then acc
          else (String.mk (unquoteChars (plusToSpace name)),
              String.mk (unquoteChars (plusToSpace value))) :: acc) [] = pairs := by
  induction pairs with
  | nil => rfl
  | cons p ps ih =>
    simp only [List.map_cons, List.foldr_cons]
    rw [if_neg (seg_ne_nil p.1 p.2),
      breakAtChar_append '=' _ _ (eq_not_mem_quotePlus p.1)]
    dsimp only
    have hvne : quotePlus p.2 ≠ [] := by
      intro h
      exact hv p (List.mem_cons_self _ _) ((quotePlus_nil_iff p.2).mp h)
    rw [if_neg hvne, unquote_plusToSpace_quotePlus, unquote_plusToSpace_quotePlus,
      ih (fun q hq => hv q (List.mem_cons_of_mem _ hq))]
    rfl

theorem parse_qsl_urlencodePairs (qp : List (String × String)) (hv : ∀ p ∈ qp, p.2 ≠ "") :
    parse_qsl (urlencodePairs qp) = qp := by
  cases qp with
  | nil => rfl
  | cons p ps =>
    unfold parse_qsl urlencodePairs
    have hfree : ∀ s ∈ (p :: ps).map (fun p => quotePlus p.1 ++ '=' :: quotePlus p.2),
        '&' ∉ s := by
      intro s hs
      obtain ⟨q, hq, rfl⟩ := List.mem_map.mp hs
      intro hmem
      rcases List.mem_append.mp hmem with h | h
      · exact amp_not_mem_quotePlus q.1 h
      · rcases List.mem_cons.mp h with he | h
        · exact absurd he (by decide)
        · exact amp_not_mem_quotePlus q.2 h
    have hjoin_ne : joinChars '&'
        ((p :: ps).map (fun p => quotePlus p.1 ++ '=' :: quotePlus p.2)) ≠ [] := by
      cases ps with
      | nil => exact seg_ne_nil p.1 p.2
      | cons q qs =>
        simp only [List.map_cons, joinChars]
        intro h
        exact absurd (List.append_eq_nil.mp h).2 (by simp)
    rw [if_neg hjoin_ne, splitOn_joinChars '&' _ (by simp) hfree]
    exact qsl_fold_segments (p :: ps) hv

theorem utf8Step_snd_len (pending : List ℕ) (b : ℕ) : (utf8Step pending b).2.length ≤ 3 := by
  rcases pending with _ | ⟨l, _ | ⟨b1, _ | ⟨b2, _ | ⟨b3, rest⟩⟩⟩⟩ <;>
    simp only [utf8Step, utf8StepEmpty] <;> (try split_ifs) <;> simp

theorem utf8Step_fst_nil (pending : List ℕ) (b : ℕ) (hlen : pending.length ≤ 3)
    (h : (utf8Step pending b).1 = []) : (utf8Step pending b).2 ≠ [] := by
  rcases pending with _ | ⟨l, _ | ⟨b1, _ | ⟨b2, _ | ⟨b3, rest⟩⟩⟩⟩
  · simp only [utf8Step, utf8StepEmpty] at h ⊢
    split_ifs at h ⊢ <;> simp_all
  · simp only [utf8Step, utf8StepEmpty] at h ⊢
    split_ifs at h ⊢ <;> simp_all
  · simp only [utf8Step, utf8StepEmpty] at h ⊢
    split_ifs at h ⊢ <;> simp_all
  · simp only [utf8Step, utf8StepEmpty] at h ⊢
    split_ifs at h ⊢ <;> simp_all
  · simp at hlen

theorem decodeTokensAux_ne_nil (ts : List (ℕ ⊕ Char)) : ∀ pending : List ℕ,
    pending.length ≤ 3 → (pending ≠ [] ∨ ts ≠ []) → decodeTokensAux pending ts ≠ [] := by
  induction ts with
  | nil =>
    intro pending hlen hne
    rcases hne with h | h
    · simp [decodeTokensAux, utf8Flush, h]
    · exact absurd rfl h
  | cons t rest ih =>
    intro pending hlen hne
    cases t with
    | inr c => simp [decodeTokensAux]
    | inl b =>
      rw [decodeTokensAux]
      by_cases hr : (utf8Step pending b).1 = []
      · rw [hr, List.nil_append]
        exact ih (utf8Step pending b).2 (utf8Step_snd_len pending b)
          (Or.inl (utf8Step_fst_nil pending b hlen hr))
      · intro habs
        exact hr (List.append_eq_nil.mp habs).1

theorem unquoteTokens_ne_nil (l : List Char) (h : l ≠ []) : unquoteTokens l ≠ [] := by
  cases l with
  | nil => exact absurd rfl h
  | cons c rest =>
    rw [unquoteTokens.eq_def]
    split
    all_goals (try split)
    all_goals simp_all

theorem unquoteChars_ne_nil (l : List Char) (h : l ≠ []) : unquoteChars l ≠ [] :=
  decodeTokensAux_ne_nil (unquoteTokens l) [] (by simp) (Or.inr (unquoteTokens_ne_nil l h))

theorem mk_ne_empty (l : List Char) (h : l ≠ []) : String.mk l ≠ "" := by
  intro habs
  apply h
  have : (String.mk l).data = ("" : String).data := by rw [habs]
  simpa using this

theorem parse_qsl_values_ne (qs : List Char) : ∀ p ∈ parse_qsl qs, p.2 ≠ "" := by
  unfold parse_qsl
  split
  · simp
  · generalize splitOn '&' qs = segs
    induction segs with
    | nil => simp
    | cons nv rest ih =>
      intro p hp
      simp only [List.foldr_cons] at hp
      by_cases h1 : nv = []
      · rw [if_pos h1] at hp
        exact ih p hp
      · rw [if_neg h1] at hp
        rcases hbr : breakAtChar '=' nv with ⟨name, vo⟩
        rw [hbr] at hp
        cases vo with
        | none =>
          dsimp only at hp
          exact ih p hp
        | some value =>
          dsimp only at hp
          by_cases h2 : value = []
          · rw [if_pos h2] at hp
            exact ih p hp
          · rw [if_neg h2] at hp
            rcases List.mem_cons.mp hp with he | hm
            · subst he
              exact mk_ne_empty _ (unquoteChars_ne_nil _ (by simp [plusToSpace, h2]))
            · exact ih p hm

theorem strLtB_asymm : ∀ a b : List Char, strLtB a b = true → strLtB b a = false := by
  intro a
  induction a with
  | nil => intro b h; cases b <;> simp [strLtB] at h ⊢
  | cons x xs ih =>
    intro b h
    cases b with
    | nil => simp [strLtB] at h
    | cons y ys =>
      simp only [strLtB] at h ⊢
      by_cases h1 : x < y
      · rw [if_neg (fun h2 => absurd h1 (lt_asymm h2)), if_pos h1]
      · rw [if_neg h1] at h
        by_cases h2 : y < x
        · rw [if_pos h2] at h
          exact absurd h (by simp)
        · rw [if_neg h2] at h
          rw [if_neg h2, if_neg h1]
          exact ih ys h

theorem pairLeB_total (p q : String × String) : pairLeB p q = true ∨ pairLeB q p = true := by
  unfold pairLeB
  cases h1 : strLtB p.1.toList q.1.toList with
  | true => left; simp [h1]
  | false =>
    cases h2 : strLtB q.1.toList p.1.toList with
    | true => right; simp [h2]
    | false =>
      simp only [h1, h2, Bool.false_eq_true, if_false]
      cases h3 : strLtB q.2.toList p.2.toList with
      | true =>
        right
        simp only [Bool.not_eq_true']
        exact strLtB_asymm _ _ h3
      | false => left; simp [h3]

theorem chain_insertPair (p : String × String) :
    ∀ l : List (String × String), List.Chain' (fun a b => pairLeB a b = true) l →
    List.Chain' (fun a b => pairLeB a b = true) (insertPair p l) := by
  intro l
  induction l with
  | nil => intro _; simp [insertPair]
  | cons q qs ih =>
    intro hl
    rw [insertPair]
    by_cases h : pairLeB p q = true
    · rw [if_pos h]
      exact hl.cons h
    · rw [if_neg h]
      have hqp : pairLeB q p = true := (pairLeB_total p q).resolve_left h
      refine List.chain'_cons'.mpr ⟨?_, ih hl.tail⟩
      intro b hb
      cases qs with
      | nil =>
        simp [insertPair] at hb
        subst hb
        exact hqp
      | cons r rs =>
        rw [insertPair] at hb
        by_cases h' : pairLeB p r = true
        · rw [if_pos h'] at hb
          simp at hb
          subst hb
          exact hqp
        · rw [if_neg h'] at hb
          simp at hb
          subst hb
          exact (List.chain'_cons.mp hl).1

theorem sortPairs_sorted (l : List (String × String)) :
    List.Chain' (fun a b => pairLeB a b = true) (sortPairs l) := by
  induction l with
  | nil => simp [sortPairs]
  | cons p ps ih => exact chain_insertPair p _ ih

theorem sortPairs_eq_of_sorted : ∀ l : List (String × String),
    List.Chain' (fun a b => pairLeB a b = true) l → sortPairs l = l := by
  intro l
  induction l with
  | nil => intro _; rfl
  | cons p ps ih =>
    intro hl
    rw [sortPairs, ih hl.tail]
    cases ps with
    | nil => rfl
    | cons q qs =>
      rw [insertPair, if_pos (List.chain'_cons.mp hl).1]

theorem mem_insertPair (a p : String × String) :
    ∀ l, a ∈ insertPair p l ↔ a = p ∨ a ∈ l := by
  intro l
  induction l with
  | nil => simp [insertPair]
  | cons q qs ih =>
    rw [insertPair]
    by_cases h : pairLeB p q = true
    · rw [if_pos h]; simp
    · rw [if_neg h]
      simp only [List.mem_cons, ih]
      tauto

theorem mem_sortPairs (a : String × String) :
    ∀ l, a ∈ sortPairs l ↔ a ∈ l := by
  intro l
  induction l with
  | nil => simp [sortPairs]
  | cons p ps ih =>
    rw [sortPairs, mem_insertPair]
    simp [ih]

/-! ### fixpoint assembly helpers -/

theorem sanitizeUrl_eq_self (l : List Char)
    (hnosafe : ∀ c ∈ l, isUnsafeUrlByte c = false)
    (hhead : ∀ x ∈ l.head?, isC0OrSpace x = false) :
    sanitizeUrl l = l := by
  unfold sanitizeUrl
  have h1 : l.dropWhile isC0OrSpace = l := by
    cases l with
    | nil => rfl
    | cons x t =>
      rw [List.dropWhile_cons, hhead x (by simp)]
      simp
  rw [h1, List.filter_eq_self.mpr]
  intro c hc
  simp [hnosafe c hc]

theorem detectScheme_append (s rest : List Char) (hne : s ≠ [])
    (hhead : ∀ x ∈ s.head?, x.isAlpha = true)
    (hall : s.all isSchemeChar = true)
    (hlow : lowerChars s = s) :
    detectScheme (s ++ ':' :: rest) = (s, rest) := by
  have hcol : ':' ∉ s := by
    intro hmem
    have := List.all_eq_true.mp hall ':' hmem
    exact absurd this (by decide)
  unfold detectScheme
  rw [breakAtChar_append ':' s rest hcol]
  cases s with
  | nil => exact absurd rfl hne
  | cons c0 s' =>
    have hc0 : c0.isAlpha = true := hhead c0 (by simp)
    dsimp only
    have hcond : (c0.isAlpha && (c0 :: s').all isSchemeChar) = true := by
      simp [hc0, hall]
    rw [if_pos hcond, hlow]

theorem detectScheme_spec (l : List Char) :
    (detectScheme l).1 = [] ∨
    ((detectScheme l).1 ≠ [] ∧ (∀ x ∈ (detectScheme l).1.head?, x.isAlpha = true) ∧
      (detectScheme l).1.all isSchemeChar = true ∧
      lowerChars (detectScheme l).1 = (detectScheme l).1) := by
  unfold detectScheme
  cases hb : breakAtChar ':' l with
  | mk before after =>
    cases after with
    | none => simp
    | some t =>
      cases before with
      | nil => simp
      | cons c0 s' =>
        dsimp only
        by_cases hcond : (c0.isAlpha && (c0 :: s').all isSchemeChar) = true
        · rw [if_pos hcond]
          rw [Bool.and_eq_true] at hcond
          right
          refine ⟨by simp [lowerChars], ?_, ?_, lowerChars_lowerChars _⟩
          · intro x hx
            simp only [lowerChars, List.map_cons, List.head?_cons, Option.mem_def,
              Option.some.injEq] at hx
            rw [← hx]
            exact toLower_isAlpha c0 hcond.1
          · rw [List.all_eq_true]
            intro x hx
            simp only [lowerChars, List.mem_map] at hx
            obtain ⟨c', hc', rfl⟩ := hx
            exact toLower_isSchemeChar c' (List.all_eq_true.mp hcond.2 c' hc')
        · rw [if_neg hcond]
          simp

theorem detectScheme_snd_mem (l : List Char) (c : Char) (h : c ∈ (detectScheme l).2) :
    c ∈ l := by
  unfold detectScheme at h
  cases hb : breakAtChar ':' l with
  | mk before after =>
    rw [hb] at h
    cases after with
    | none => exact h
    | some t =>
      cases before with
      | nil => exact h
      | cons c0 s' =>
        dsimp only at h
        by_cases hcond : (c0.isAlpha && (c0 :: s').all isSchemeChar) = true
        · rw [if_pos hcond] at h
          exact mem_breakAtChar_snd ':' c l t (by rw [hb]) h
        · rw [if_neg hcond] at h
          exact h

theorem mem_joinChars (sep c : Char) : ∀ segs : List (List Char),
    c ∈ joinChars sep segs → c = sep ∨ ∃ s ∈ segs, c ∈ s := by
  intro segs
  induction segs with
  | nil => intro h; simp [joinChars] at h
  | cons x xs ih =>
    cases xs with
    | nil =>
      intro h
      right
      exact ⟨x, by simp, by simpa [joinChars] using h⟩
    | cons y ys =>
      intro h
      rw [joinChars] at h
      rcases List.mem_append.mp h with h | h
      · right; exact ⟨x, by simp, h⟩
      · rcases List.mem_cons.mp h with rfl | h
        · left; rfl
        · rcases ih h with h | ⟨s, hs, hcs⟩
          · left; exact h
          · right; exact ⟨s, List.mem_cons_of_mem _ hs, hcs⟩

theorem mem_urlencodePairs (c : Char) (qp : List (String × String))
    (h : c ∈ urlencodePairs qp) : goodQueryChar c := by
  unfold urlencodePairs at h
  rcases mem_joinChars '&' c _ h with rfl | ⟨s, hs, hcs⟩
  · exact Or.inr (Or.inr (Or.inr (Or.inr rfl)))
  · obtain ⟨p, hp, rfl⟩ := List.mem_map.mp hs
    rcases List.mem_append.mp hcs with h | h
    · exact quotePlus_good _ _ h
    · rcases List.mem_cons.mp h with rfl | h
      · exact Or.inr (Or.inr (Or.inr (Or.inl rfl)))
      · exact quotePlus_good _ _ h

theorem toLower_mem_iff (d : Char) (hd1 : ¬(65 ≤ d.toNat ∧ d.toNat ≤ 90))
    (hd2 : ¬(97 ≤ d.toNat ∧ d.toNat ≤ 122)) (c : Char) : (d = c.toLower) ↔ (d = c) := by
  rcases toLower_cases c with h | ⟨h1, h2, h3⟩
  · rw [h]
  · constructor
    · intro he
      rw [char_eq_iff_toNat] at he
      omega
    · intro he
      rw [char_eq_iff_toNat] at he ⊢
      omega

theorem mem_lowerChars_iff (d : Char) (hd1 : ¬(65 ≤ d.toNat ∧ d.toNat ≤ 90))
    (hd2 : ¬(97 ≤ d.toNat ∧ d.toNat ≤ 122)) (l : List Char) :
    d ∈ lowerChars l ↔ d ∈ l := by
  simp only [lowerChars, List.mem_map]
  constructor
  · rintro ⟨c, hc, rfl⟩
    have he : c.toLower = c := (toLower_mem_iff c.toLower hd1 hd2 c).mp rfl
    rw [he]
    exact hc
  · intro h
    exact ⟨d, h, ((toLower_mem_iff d hd1 hd2 d).mpr rfl).symm⟩

theorem urlsplitE_inv (l : List Char) (r : SplitUrl) (h : urlsplitE l = Except.ok r) :
    (r.scheme = [] ∨ (r.scheme ≠ [] ∧ (∀ x ∈ r.scheme.head?, x.isAlpha = true) ∧
        r.scheme.all isSchemeChar = true ∧ lowerChars r.scheme = r.scheme)) ∧
      (∀ c ∈ r.netloc, isNetDelim c = false) ∧
      (∀ c ∈ r.netloc, c ∈ l ∧ isUnsafeUrlByte c = false) ∧
      ((r.netloc.contains '[' && !(r.netloc.contains ']')) ||
        (r.netloc.contains ']' && !(r.netloc.contains '['))) = false ∧
      ('?' ∉ r.path) ∧ ('#' ∉ r.path) ∧
      (∀ c ∈ r.path, c ∈ l ∧ isUnsafeUrlByte c = false) := by
  unfold urlsplitE at h
  dsimp only at h
  have hspec := detectScheme_spec (sanitizeUrl l)
  cases hd : detectScheme (sanitizeUrl l) with
  | mk s t =>
    rw [hd] at h hspec
    dsimp only at h hspec
    have htmem : ∀ c ∈ t, c ∈ l ∧ isUnsafeUrlByte c = false := by
      intro c hc
      exact mem_sanitizeUrl c l
        (detectScheme_snd_mem (sanitizeUrl l) c (by rw [hd]; exact hc))
    by_cases ht2 : t.take 2 = ['/', '/']
    · rw [if_pos ht2] at h
      cases hsn : splitNetloc (t.drop 2) with
      | mk nl rest =>
        rw [hsn] at h
        dsimp only at h
        by_cases hbr : ((nl.contains '[' && !(nl.contains ']')) ||
            (nl.contains ']' && !(nl.contains '['))) = true
        · rw [if_pos hbr] at h
          exact absurd h (by simp)
        · rw [if_neg hbr] at h
          have hr := Except.ok.inj h
          subst hr
          have hrestmem : ∀ c ∈ rest, c ∈ l ∧ isUnsafeUrlByte c = false := by
            intro c hc
            have h1 : c ∈ (splitNetloc (t.drop 2)).2 := by rw [hsn]; exact hc
            exact htmem c (List.drop_subset 2 t (mem_splitNetloc_snd c _ h1))
          refine ⟨hspec, ?_, ?_, ?_, ?_, ?_, ?_⟩
          · intro c hc
            exact splitNetloc_fst_no_delim (t.drop 2) c (by rw [hsn]; exact hc)
          · intro c hc
            exact htmem c (List.drop_subset 2 t
              (mem_splitNetloc_fst c _ (by rw [hsn]; exact hc)))
          · revert hbr
            cases ((nl.contains '[' && !(nl.contains ']')) ||
              (nl.contains ']' && !(nl.contains '['))) <;> simp
          · exact breakAtChar_fst_not_mem '?' _
          · intro hmem
            exact breakAtChar_fst_not_mem '#' rest (mem_breakAtChar_fst '?' '#' _ hmem)
          · intro c hc
            exact hrestmem c (mem_breakAtChar_fst '#' c rest
              (mem_breakAtChar_fst '?' c _ hc))
    · rw [if_neg ht2] at h
      dsimp only at h
      rw [if_neg (by decide :
        ¬((([] : List Char).contains '[' && !(([] : List Char).contains ']')) ||
          (([] : List Char).contains ']' && !(([] : List Char).contains '['))) = true)] at h
      have hr := Except.ok.inj h
      subst hr
      refine ⟨hspec, ?_, ?_, by rfl, ?_, ?_, ?_⟩
      · intro c hc
        simp at hc
      · intro c hc
        simp at hc
      · exact breakAtChar_fst_not_mem '?' _
      · intro hmem
        exact breakAtChar_fst_not_mem '#' t (mem_breakAtChar_fst '?' '#' _ hmem)
      · intro c hc
        exact htmem c (mem_breakAtChar_fst '#' c t (mem_breakAtChar_fst '?' c _ hc))

theorem urlparseE_inv (l : List Char) (r : SplitUrl) (ps : List Char)
    (h : urlparseE l = Except.ok (r, ps))
    (hsemi : ∀ c ∈ l, c ≠ ';') :
    urlsplitE l = Except.ok r ∧ ps = [] := by
  unfold urlparseE at h
  cases hs : urlsplitE l with
  | error e => rw [hs] at h; exact absurd h (by simp)
  | ok r0 =>
    rw [hs] at h
    dsimp only at h
    have hsub := (urlsplitE_inv l r0 hs).2.2.2.2.2.2
    have hnosemi : r0.path.contains ';' = false := by
      cases hc : r0.path.contains ';' with
      | false => rfl
      | true =>
        have : ';' ∈ r0.path :=
          List.elem_iff.mp (show List.elem ';' r0.path = true from hc)
        exact absurd rfl (hsemi ';' (hsub ';' this).1)
    rw [hnosemi] at h
    rw [Bool.and_false] at h
    rw [if_neg (by simp)] at h
    have hp := Except.ok.inj h
    rw [Prod.mk.injEq] at hp
    obtain ⟨hp1, hp2⟩ := hp
    subst hp1
    exact ⟨rfl, hp2.symm⟩

theorem qtail_nosafe (q : List Char) (hqgood : ∀ c ∈ q, goodQueryChar c) :
    ∀ c ∈ (if q = [] then [] else '?' :: q), isUnsafeUrlByte c = false := by
  intro c hc
  split at hc
  · simp at hc
  · rcases List.mem_cons.mp hc with rfl | hc
    · decide
    · exact (goodQueryChar_not_delim c (hqgood c hc)).2.2.2.2.2.1

theorem qtail_nosharp (q : List Char) (hqgood : ∀ c ∈ q, goodQueryChar c) :
    '#' ∉ (if q = [] then [] else '?' :: q) := by
  intro hc
  split at hc
  · simp at hc
  · rcases List.mem_cons.mp hc with he | hc
    · exact absurd he (by decide)
    · exact absurd rfl (goodQueryChar_not_delim '#' (hqgood '#' hc)).2.1

theorem scheme_head_notC0 (scheme rest : List Char) (hs_ne : scheme ≠ [])
    (hs_head : ∀ x ∈ scheme.head?, x.isAlpha = true) :
    ∀ x ∈ (scheme ++ rest).head?, isC0OrSpace x = false := by
  cases scheme with
  | nil => exact absurd rfl hs_ne
  | cons c0 s0 =>
    intro x hx
    simp only [List.cons_append, List.head?_cons, Option.mem_def, Option.some.injEq] at hx
    have ha : c0.isAlpha = true := hs_head c0 (by simp)
    rcases isAlpha_toNat c0 ha with h | h <;>
      · rw [← hx]
        simp only [isC0OrSpace, decide_eq_false_iff_not]
        omega

theorem scheme_chars_nosafe (scheme : List Char) (hs_all : scheme.all isSchemeChar = true) :
    ∀ c ∈ scheme, isUnsafeUrlByte c = false := by
  intro c hc
  exact (isSchemeChar_facts c (List.all_eq_true.mp hs_all c hc)).2

theorem urlsplitE_canonT (scheme n url0 q : List Char)
    (hs_ne : scheme ≠ []) (hs_head : ∀ x ∈ scheme.head?, x.isAlpha = true)
    (hs_all : scheme.all isSchemeChar = true) (hs_low : lowerChars scheme = scheme)
    (hn_delim : ∀ c ∈ n, isNetDelim c = false)
    (hn_nosafe : ∀ c ∈ n, isUnsafeUrlByte c = false)
    (hn_brack : ((n.contains '[' && !(n.contains ']')) ||
      (n.contains ']' && !(n.contains '['))) = false)
    (hu_head : url0.take 1 = ['/'])
    (hu_nosafe : ∀ c ∈ url0, isUnsafeUrlByte c = false)
    (hu_nosharp : '#' ∉ url0) (hu_noq : '?' ∉ url0)
    (hqgood : ∀ c ∈ q, goodQueryChar c) :
    urlsplitE (scheme ++ ':' :: '/' :: '/' ::
        (n ++ (url0 ++ (if q = [] then [] else '?' :: q)))) =
      Except.ok ⟨scheme, n, url0, q, []⟩ := by
  obtain ⟨u', rfl⟩ : ∃ u', url0 = '/' :: u' := by
    cases url0 with
    | nil => simp at hu_head
    | cons c u' =>
      simp only [List.take_succ_cons, List.take_zero, List.cons.injEq, and_true] at hu_head
      exact ⟨u', by rw [hu_head]⟩
  have hun : ∀ c ∈ ('/' :: u') ++ (if q = [] then [] else '?' :: q),
      isUnsafeUrlByte c = false := by
    intro c hc
    rcases List.mem_append.mp hc with hc | hc
    · exact hu_nosafe c hc
    · exact qtail_nosafe q hqgood c hc
  have hall_nosafe : ∀ c ∈ scheme ++ ':' :: '/' :: '/' ::
      (n ++ (('/' :: u') ++ (if q = [] then [] else '?' :: q))), isUnsafeUrlByte c = false := by
    intro c hc
    rcases List.mem_append.mp hc with hc | hc
    · exact scheme_chars_nosafe scheme hs_all c hc
    · rcases List.mem_cons.mp hc with rfl | hc
      · decide
      · rcases List.mem_cons.mp hc with rfl | hc
        · decide
        · rcases List.mem_cons.mp hc with rfl | hc
          · decide
          · rcases List.mem_append.mp hc with hc | hc
            · exact hn_nosafe c hc
            · exact hun c hc
  unfold urlsplitE
  dsimp only
  rw [sanitizeUrl_eq_self _ hall_nosafe (scheme_head_notC0 _ _ hs_ne hs_head),
    detectScheme_append scheme _ hs_ne hs_head hs_all hs_low]
  dsimp only
  rw [if_pos (by rfl :
    (('/' :: '/' :: (n ++ (('/' :: u') ++ (if q = [] then [] else '?' :: q)))).take 2 =
      ['/', '/']))]
  rw [show ('/' :: '/' :: (n ++ (('/' :: u') ++ (if q = [] then [] else '?' :: q)))).drop 2 =
    n ++ (('/' :: u') ++ (if q = [] then [] else '?' :: q)) from rfl]
  rw [splitNetloc_append n (('/' :: u') ++ (if q = [] then [] else '?' :: q)) hn_delim
    (Or.inr ⟨'/', u' ++ (if q = [] then [] else '?' :: q), by simp, by decide⟩)]
  dsimp only
  rw [if_neg (by rw [hn_brack]; exact Bool.false_ne_true)]
  rw [breakAtChar_not_mem '#' _ (by
    intro hc
    rcases List.mem_append.mp hc with hc | hc
    · exact hu_nosharp hc
    · exact qtail_nosharp q hqgood hc)]
  dsimp only
  by_cases hq0 : q = []
  · rw [if_pos hq0, List.append_nil, breakAtChar_not_mem '?' _ hu_noq]
    rw [hq0]
    rfl
  · rw [if_neg hq0, breakAtChar_append '?' _ q hu_noq]
    rfl

theorem urlsplitE_canonF (scheme p q : List Char)
    (hs_ne : scheme ≠ []) (hs_head : ∀ x ∈ scheme.head?, x.isAlpha = true)
    (hs_all : scheme.all isSchemeChar = true) (hs_low : lowerChars scheme = scheme)
    (hp_ne : p ≠ []) (hp_take2 : p.take 2 ≠ ['/', '/'])
    (hp_nosafe : ∀ c ∈ p, isUnsafeUrlByte c = false)
    (hp_nosharp : '#' ∉ p) (hp_noq : '?' ∉ p)
    (hqgood : ∀ c ∈ q, goodQueryChar c) :
    urlsplitE (scheme ++ ':' :: (p ++ (if q = [] then [] else '?' :: q))) =
      Except.ok ⟨scheme, [], p, q, []⟩ := by
  have hall_nosafe : ∀ c ∈ scheme ++ ':' :: (p ++ (if q = [] then [] else '?' :: q)),
      isUnsafeUrlByte c = false := by
    intro c hc
    rcases List.mem_append.mp hc with hc | hc
    · exact scheme_chars_nosafe scheme hs_all c hc
    · rcases List.mem_cons.mp hc with rfl | hc
      · decide
      · rcases List.mem_append.mp hc with hc | hc
        · exact hp_nosafe c hc
        · exact qtail_nosafe q hqgood c hc
  unfold urlsplitE
  dsimp only
  rw [sanitizeUrl_eq_self _ hall_nosafe (scheme_head_notC0 _ _ hs_ne hs_head),
    detectScheme_append scheme _ hs_ne hs_head hs_all hs_low]
  dsimp only
  have htake2 : (p ++ (if q = [] then [] else '?' :: q)).take 2 ≠ ['/', '/'] := by
    cases p with
    | nil => exact absurd rfl hp_ne
    | cons x p' =>
      cases p' with
      | nil =>
        by_cases hq0 : q = []
        · rw [if_pos hq0]
          simp
        · rw [if_neg hq0]
          intro hc
          simp only [List.cons_append, List.nil_append, List.take_succ_cons,
            List.take_succ_cons, List.take_zero, List.cons.injEq, and_true] at hc
          exact absurd hc.2 (by decide)
      | cons y p'' =>
        intro hc
        apply hp_take2
        simp only [List.cons_append, List.take_succ_cons, List.take_zero,
          List.cons.injEq, and_true] at hc ⊢
        exact hc
  rw [if_neg htake2]
  dsimp only
  rw [if_neg (by decide :
    ¬((([] : List Char).contains '[' && !(([] : List Char).contains ']')) ||
      (([] : List Char).contains ']' && !(([] : List Char).contains '['))) = true)]
  rw [breakAtChar_not_mem '#' _ (by
    intro hc
    rcases List.mem_append.mp hc with hc | hc
    · exact hp_nosharp hc
    · exact qtail_nosharp q hqgood hc)]
  dsimp only
  by_cases hq0 : q = []
  · rw [if_pos hq0, List.append_nil, breakAtChar_not_mem '?' _ hp_noq]
    rw [hq0]
    rfl
  · rw [if_neg hq0, breakAtChar_append '?' _ q hp_noq]
    rfl

theorem urlparseE_skip (l : List Char) (r : SplitUrl) (hs : urlsplitE l = Except.ok r)
    (hnosemi : ';' ∉ r.path) : urlparseE l = Except.ok (r, []) := by
  unfold urlparseE
  rw [hs]
  dsimp only
  have hc : r.path.contains ';' = false := by
    cases hcc : r.path.contains ';' with
    | false => rfl
    | true =>
      exact absurd (List.elem_iff.mp (show List.elem ';' r.path = true from hcc)) hnosemi
  rw [hc, Bool.and_false, if_neg (by simp)]

theorem urlunparse_noparams (scheme n p q f : List Char) :
    urlunparseChars scheme n p [] q f = urlunsplitChars scheme n p q f := by
  unfold urlunparseChars
  dsimp only
  rw [if_neg (by simp : ¬(([] : List Char) ≠ []))]

theorem urlunparse_T (scheme n p q : List Char)
    (hcond : n ≠ [] ∨ (scheme ≠ [] ∧ uses_netloc.contains (String.mk scheme) = true ∧
      p.take 2 ≠ ['/', '/']))
    (hs_ne : scheme ≠ []) :
    urlunparseChars scheme n p [] q [] =
      scheme ++ ':' :: '/' :: '/' ::
        (n ++ ((if p ≠ [] ∧ p.take 1 ≠ ['/'] then '/' :: p else p) ++
          (if q = [] then [] else '?' :: q))) := by
  rw [urlunparse_noparams]
  unfold urlunsplitChars
  dsimp only
  rw [if_pos hcond, if_pos hs_ne]
  by_cases hq0 : q = []
  · rw [if_neg (by rw [hq0]; simp : ¬(q ≠ [])), if_neg (by simp : ¬(([] : List Char) ≠ [])),
      if_pos hq0]
    simp [List.append_assoc]
  · rw [if_pos hq0, if_neg (by simp : ¬(([] : List Char) ≠ [])), if_neg hq0]
    simp [List.append_assoc]

theorem urlunparse_F (scheme n p q : List Char)
    (hcond : ¬(n ≠ [] ∨ (scheme ≠ [] ∧ uses_netloc.contains (String.mk scheme) = true ∧
      p.take 2 ≠ ['/', '/'])))
    (hs_ne : scheme ≠ []) :
    urlunparseChars scheme n p [] q [] =
      scheme ++ ':' :: (p ++ (if q = [] then [] else '?' :: q)) := by
  rw [urlunparse_noparams]
  unfold urlunsplitChars
  dsimp only
  rw [if_neg hcond, if_pos hs_ne]
  by_cases hq0 : q = []
  · rw [if_neg (by rw [hq0]; simp : ¬(q ≠ [])), if_neg (by simp : ¬(([] : List Char) ≠ [])),
      if_pos hq0]
    simp
  · rw [if_pos hq0, if_neg (by simp : ¬(([] : List Char) ≠ [])), if_neg hq0]
    simp [List.append_assoc]

theorem canon_fix_T (scheme n p q : List Char)
    (hs_ne : scheme ≠ []) (hs_head : ∀ x ∈ scheme.head?, x.isAlpha = true)
    (hs_all : scheme.all isSchemeChar = true) (hs_low : lowerChars scheme = scheme)
    (hn_delim : ∀ c ∈ n, isNetDelim c = false)
    (hn_nosafe : ∀ c ∈ n, isUnsafeUrlByte c = false)
    (hn_low : lowerChars n = n)
    (hn_brack : ((n.contains '[' && !(n.contains ']')) ||
      (n.contains ']' && !(n.contains '['))) = false)
    (hp_ne : p ≠ []) (hp_rstrip : rstripSlashes p = p ∨ p = ['/'])
    (hp_nosafe : ∀ c ∈ p, isUnsafeUrlByte c = false)
    (hp_nosharp : '#' ∉ p) (hp_noq : '?' ∉ p) (hp_nosemi : ';' ∉ p)
    (hq : q = urlencodePairs (sortPairs (parse_qsl q)))
    (hcond : n ≠ [] ∨ (scheme ≠ [] ∧ uses_netloc.contains (String.mk scheme) = true ∧
      p.take 2 ≠ ['/', '/'])) :
    canonicalize_url (String.mk (urlunparseChars scheme n p [] q [])) =
      Except.ok (String.mk (urlunparseChars scheme n p [] q [])) := by
  have hqgood : ∀ c ∈ q, goodQueryChar c := by
    intro c hc
    rw [hq] at hc
    exact mem_urlencodePairs c _ hc
  by_cases hpp : p ≠ [] ∧ p.take 1 ≠ ['/']
  case neg =>
    have hphead : p.take 1 = ['/'] := by
      rcases not_and_or.mp hpp with h | h
      · exact absurd hp_ne h
      · exact not_not.mp h
    have hifp : (if p ≠ [] ∧ p.take 1 ≠ ['/'] then '/' :: p else p) = p := if_neg hpp
    have hfix : (if rstripSlashes p = [] then ['/'] else rstripSlashes p) = p := by
      rcases hp_rstrip with h | h
      · rw [h, if_neg hp_ne]
      · rw [h]
        rfl
    have hsp := urlsplitE_canonT scheme n p q hs_ne hs_head hs_all hs_low hn_delim
      hn_nosafe hn_brack hphead hp_nosafe hp_nosharp hp_noq hqgood
    have hpar := urlparseE_skip _ _ hsp hp_nosemi
    rw [urlunparse_T scheme n p q hcond hs_ne, hifp]
    have hpar' : urlparseE (String.mk (scheme ++ ':' :: '/' :: '/' ::
        (n ++ (p ++ (if q = [] then [] else '?' :: q))))).toList =
        Except.ok (⟨scheme, n, p, q, []⟩, []) := hpar
    unfold canonicalize_url
    rw [hpar']
    dsimp only
    rw [if_neg hs_ne, hn_low, hfix, ← hq,
      urlunparse_T scheme n p q hcond hs_ne, hifp]
  case pos =>
    have hu0_head : ('/' :: p).take 1 = ['/'] := rfl
    have hu0_nosafe : ∀ c ∈ '/' :: p, isUnsafeUrlByte c = false := by
      intro c hc
      rcases List.mem_cons.mp hc with rfl | hc
      · decide
      · exact hp_nosafe c hc
    have hu0_nosharp : '#' ∉ '/' :: p := by
      intro hc
      rcases List.mem_cons.mp hc with he | hc
      · exact absurd he (by decide)
      · exact hp_nosharp hc
    have hu0_noq : '?' ∉ '/' :: p := by
      intro hc
      rcases List.mem_cons.mp hc with he | hc
      · exact absurd he (by decide)
      · exact hp_noq hc
    have hu0_nosemi : ';' ∉ '/' :: p := by
      intro hc
      rcases List.mem_cons.mp hc with he | hc
      · exact absurd he (by decide)
      · exact hp_nosemi hc
    have hrp : rstripSlashes p = p := by
      rcases hp_rstrip with h | h
      · exact h
      · exact absurd (by rw [h]; rfl : p.take 1 = ['/']) hpp.2
    have hfix : (if rstripSlashes ('/' :: p) = [] then ['/'] else rstripSlashes ('/' :: p)) =
        '/' :: p := by
      rw [rstripSlashes_cons_slash p hp_ne hrp]
      simp
    have hifp : (if p ≠ [] ∧ p.take 1 ≠ ['/'] then '/' :: p else p) = '/' :: p := if_pos hpp
    have hifu0 : (if ('/' :: p) ≠ [] ∧ ('/' :: p).take 1 ≠ ['/'] then '/' :: '/' :: p
        else '/' :: p) = '/' :: p := by
      rw [if_neg]
      rintro ⟨-, h2⟩
      exact h2 rfl
    have hu0_take2 : n = [] → ('/' :: p).take 2 ≠ ['/', '/'] := by
      intro hn0
      rcases hcond with h | ⟨-, -, h⟩
      · exact absurd hn0 h
      · cases p with
        | nil => exact absurd rfl hp_ne
        | cons x p' =>
          intro hc
          simp only [List.take_succ_cons, List.take_zero, List.cons.injEq, and_true,
            true_and] at hc
          exact hpp.2 (by rw [hc]; rfl)
    have hcond' : n ≠ [] ∨ (scheme ≠ [] ∧ uses_netloc.contains (String.mk scheme) = true ∧
        ('/' :: p).take 2 ≠ ['/', '/']) := by
      rcases hcond with h | ⟨h1, h2, h3⟩
      · exact Or.inl h
      · by_cases hn0 : n = []
        · exact Or.inr ⟨h1, h2, hu0_take2 hn0⟩
        · exact Or.inl hn0
    have hsp := urlsplitE_canonT scheme n ('/' :: p) q hs_ne hs_head hs_all hs_low hn_delim
      hn_nosafe hn_brack hu0_head hu0_nosafe hu0_nosharp hu0_noq hqgood
    have hpar := urlparseE_skip _ _ hsp hu0_nosemi
    rw [urlunparse_T scheme n p q hcond hs_ne, hifp]
    have hpar' : urlparseE (String.mk (scheme ++ ':' :: '/' :: '/' ::
        (n ++ (('/' :: p) ++ (if q = [] then [] else '?' :: q))))).toList =
        Except.ok (⟨scheme, n, '/' :: p, q, []⟩, []) := hpar
    unfold canonicalize_url
    rw [hpar']
    dsimp only
    rw [if_neg hs_ne, hn_low, hfix, ← hq,
      urlunparse_T scheme n ('/' :: p) q hcond' hs_ne, hifu0]

theorem canon_fix_F (scheme p q : List Char)
    (hs_ne : scheme ≠ []) (hs_head : ∀ x ∈ scheme.head?, x.isAlpha = true)
    (hs_all : scheme.all isSchemeChar = true) (hs_low : lowerChars scheme = scheme)
    (hp_ne : p ≠ []) (hp_rstrip : rstripSlashes p = p ∨ p = ['/'])
    (hp_take2 : p.take 2 ≠ ['/', '/'])
    (hp_nosafe : ∀ c ∈ p, isUnsafeUrlByte c = false)
    (hp_nosharp : '#' ∉ p) (hp_noq : '?' ∉ p) (hp_nosemi : ';' ∉ p)
    (hq : q = urlencodePairs (sortPairs (parse_qsl q)))
    (huse : uses_netloc.contains (String.mk scheme) = false) :
    canonicalize_url (String.mk (urlunparseChars scheme [] p [] q [])) =
      Except.ok (String.mk (urlunparseChars scheme [] p [] q [])) := by
  have hqgood : ∀ c ∈ q, goodQueryChar c := by
    intro c hc
    rw [hq] at hc
    exact mem_urlencodePairs c _ hc
  have hcondF : ¬(([] : List Char) ≠ [] ∨ (scheme ≠ [] ∧
      uses_netloc.contains (String.mk scheme) = true ∧ p.take 2 ≠ ['/', '/'])) := by
    rintro (h | ⟨-, h2, -⟩)
    · exact h rfl
    · rw [huse] at h2
      exact absurd h2 (by simp)
  have hfix : (if rstripSlashes p = [] then ['/'] else rstripSlashes p) = p := by
    rcases hp_rstrip with h | h
    · rw [h, if_neg hp_ne]
    · rw [h]
      rfl
  have hsp := urlsplitE_canonF scheme p q hs_ne hs_head hs_all hs_low hp_ne hp_take2
    hp_nosafe hp_nosharp hp_noq hqgood
  have hpar := urlparseE_skip _ _ hsp hp_nosemi
  rw [urlunparse_F scheme [] p q hcondF hs_ne]
  have hpar' : urlparseE (String.mk (scheme ++ ':' ::
      (p ++ (if q = [] then [] else '?' :: q)))).toList =
      Except.ok (⟨scheme, [], p, q, []⟩, []) := hpar
  unfold canonicalize_url
  rw [hpar']
  dsimp only
  rw [if_neg hs_ne, show lowerChars ([] : List Char) = [] from rfl, hfix, ← hq,
    urlunparse_F scheme [] p q hcondF hs_ne]

theorem isNetDelim_toLower (c : Char) (h : isNetDelim c = false) :
    isNetDelim c.toLower = false := by
  rcases toLower_cases c with hc | ⟨h1, h2, h3⟩
  · rw [hc]; exact h
  · simp only [isNetDelim, Bool.or_eq_false_iff, decide_eq_false_iff_not]
    refine ⟨⟨?_, ?_⟩, ?_⟩ <;>
      { intro he; rw [char_eq_iff_toNat] at he; simp at he; omega }

theorem isUnsafeUrlByte_toLower (c : Char) (h : isUnsafeUrlByte c = false) :
    isUnsafeUrlByte c.toLower = false := by
  rcases toLower_cases c with hc | ⟨h1, h2, h3⟩
  · rw [hc]; exact h
  · simp only [isUnsafeUrlByte, Bool.or_eq_false_iff, decide_eq_false_iff_not]
    refine ⟨⟨?_, ?_⟩, ?_⟩ <;>
      { intro he; rw [char_eq_iff_toNat] at he; simp at he; omega }

theorem contains_lowerChars (l : List Char) (d : Char)
    (hd1 : ¬(65 ≤ d.toNat ∧ d.toNat ≤ 90)) (hd2 : ¬(97 ≤ d.toNat ∧ d.toNat ≤ 122)) :
    (lowerChars l).contains d = l.contains d := by
  by_cases hm : d ∈ l
  · have e1 : (lowerChars l).contains d = true :=
      List.elem_iff.mpr ((mem_lowerChars_iff d hd1 hd2 l).mpr hm)
    have e2 : l.contains d = true := List.elem_iff.mpr hm
    rw [e1, e2]
  · have e1 : (lowerChars l).contains d = false :=
      Bool.eq_false_iff.mpr (fun h =>
        hm ((mem_lowerChars_iff d hd1 hd2 l).mp (List.elem_iff.mp h)))
    have e2 : l.contains d = false :=
      Bool.eq_false_iff.mpr (fun h => hm (List.elem_iff.mp h))
    rw [e1, e2]

theorem query_roundtrip (q : List Char) :
    urlencodePairs (sortPairs (parse_qsl (urlencodePairs (sortPairs (parse_qsl q))))) =
      urlencodePairs (sortPairs (parse_qsl q)) := by
  have hv : ∀ p ∈ sortPairs (parse_qsl q), p.2 ≠ "" := by
    intro p hp
    exact parse_qsl_values_ne q p ((mem_sortPairs p _).mp hp)
  rw [parse_qsl_urlencodePairs _ hv, sortPairs_eq_of_sorted _ (sortPairs_sorted _)]

/-- C4 (amended): canonicalize_url is idempotent on every URL that
contains no semicolon and whose parse does not pair an empty netloc with
a canonical path starting with two slashes (the side condition
idemPrecond): whenever the first pass succeeds with canonical form c, a
second pass maps c to itself. -/
theorem canonicalize_url_idempotent (u c : String)
    (hpre : idemPrecond u = true)
    (hok : canonicalize_url u = Except.ok c) :
    canonicalize_url c = Except.ok c := by
  unfold canonicalize_url at hok
  cases hup : urlparseE u.toList with
  | error e =>
    rw [hup] at hok
    exact absurd hok (by simp)
  | ok rp =>
    obtain ⟨r, ps⟩ := rp
    rw [hup] at hok
    dsimp only at hok
    have hc := Except.ok.inj hok
    unfold idemPrecond at hpre
    rw [hup] at hpre
    dsimp only at hpre
    rw [Bool.and_eq_true] at hpre
    have hsemi : ∀ ch ∈ u.toList, ch ≠ ';' := by
      intro ch hch he
      subst he
      have h1 := hpre.1
      rw [Bool.not_eq_true'] at h1
      have h2 : u.toList.contains ';' = true := List.elem_iff.mpr hch
      rw [h2] at h1
      exact absurd h1 (by simp)
    have hshape0 := hpre.2
    rw [Bool.or_eq_true, Bool.not_eq_true', Bool.not_eq_true'] at hshape0
    have hshape : r.netloc ≠ [] ∨ (rstripSlashes r.path).take 2 ≠ ['/', '/'] := by
      rcases hshape0 with h | h
      · left
        intro he
        rw [he] at h
        exact absurd h (by simp)
      · right
        intro he
        rw [he] at h
        simp at h
    obtain ⟨hsp, hps⟩ := urlparseE_inv u.toList r ps hup hsemi
    obtain ⟨hsch, hnd, hnsub, hbr, hpnoq, hpnosharp, hpsub⟩ := urlsplitE_inv u.toList r hsp
    subst hc
    have hS : (if r.scheme = [] then "https".toList else r.scheme) ≠ [] ∧
        (∀ x ∈ (if r.scheme = [] then "https".toList else r.scheme).head?, x.isAlpha = true) ∧
        (if r.scheme = [] then "https".toList else r.scheme).all isSchemeChar = true ∧
        lowerChars (if r.scheme = [] then "https".toList else r.scheme) =
          (if r.scheme = [] then "https".toList else r.scheme) := by
      by_cases hs0 : r.scheme = []
      · rw [if_pos hs0]
        exact ⟨by decide, by decide, by decide, by decide⟩
      · rw [if_neg hs0]
        rcases hsch with h | h
        · exact absurd h hs0
        · exact h
    obtain ⟨hs2_ne, hs2_head, hs2_all, hs2_low⟩ := hS
    have hn2_delim : ∀ ch ∈ lowerChars r.netloc, isNetDelim ch = false := by
      intro ch hch
      obtain ⟨c', hc', rfl⟩ := List.mem_map.mp hch
      exact isNetDelim_toLower c' (hnd c' hc')
    have hn2_nosafe : ∀ ch ∈ lowerChars r.netloc, isUnsafeUrlByte ch = false := by
      intro ch hch
      obtain ⟨c', hc', rfl⟩ := List.mem_map.mp hch
      exact isUnsafeUrlByte_toLower c' ((hnsub c' hc').2)
    have hn2_low : lowerChars (lowerChars r.netloc) = lowerChars r.netloc :=
      lowerChars_lowerChars r.netloc
    have hn2_brack : (((lowerChars r.netloc).contains '[' &&
        !((lowerChars r.netloc).contains ']')) ||
        ((lowerChars r.netloc).contains ']' && !((lowerChars r.netloc).contains '['))) =
        false := by
      rw [contains_lowerChars r.netloc '[' (by decide) (by decide),
        contains_lowerChars r.netloc ']' (by decide) (by decide)]
      exact hbr
    have hp2_ne : (if rstripSlashes r.path = [] then ['/'] else rstripSlashes r.path) ≠ [] := by
      split
      · simp
      · assumption
    have hp2_rstrip : rstripSlashes
        (if rstripSlashes r.path = [] then ['/'] else rstripSlashes r.path) =
        (if rstripSlashes r.path = [] then ['/'] else rstripSlashes r.path) ∨
        (if rstripSlashes r.path = [] then ['/'] else rstripSlashes r.path) = ['/'] := by
      split
      · right; rfl
      · left; exact rstripSlashes_idem r.path
    have hp2_nosafe : ∀ ch ∈ (if rstripSlashes r.path = [] then ['/']
        else rstripSlashes r.path), isUnsafeUrlByte ch = false := by
      intro ch hch
      split at hch
      · rcases List.mem_singleton.mp hch with rfl
        decide
      · exact (hpsub ch (mem_rstripSlashes ch r.path hch)).2
    have hp2_nosharp : '#' ∉ (if rstripSlashes r.path = [] then ['/']
        else rstripSlashes r.path) := by
      intro hch
      split at hch
      · exact absurd (List.mem_singleton.mp hch) (by decide)
      · exact hpnosharp (mem_rstripSlashes _ r.path hch)
    have hp2_noq : '?' ∉ (if rstripSlashes r.path = [] then ['/']
        else rstripSlashes r.path) := by
      intro hch
      split at hch
      · exact absurd (List.mem_singleton.mp hch) (by decide)
      · exact hpnoq (mem_rstripSlashes _ r.path hch)
    have hp2_nosemi : ';' ∉ (if rstripSlashes r.path = [] then ['/']
        else rstripSlashes r.path) := by
      intro hch
      split at hch
      · exact absurd (List.mem_singleton.mp hch) (by decide)
      · exact hsemi ';' (hpsub ';' (mem_rstripSlashes _ r.path hch)).1 rfl
    have hq2 : urlencodePairs (sortPairs (parse_qsl r.query)) =
        urlencodePairs (sortPairs (parse_qsl
          (urlencodePairs (sortPairs (parse_qsl r.query))))) :=
      (query_roundtrip r.query).symm
    have hp2_take2 : lowerChars r.netloc = [] →
        (if rstripSlashes r.path = [] then ['/'] else rstripSlashes r.path).take 2 ≠
          ['/', '/'] := by
      intro hn0
      have hrn : r.netloc = [] := by
        cases hrn : r.netloc with
        | nil => rfl
        | cons a t =>
          rw [hrn] at hn0
          exact absurd hn0 (by simp [lowerChars])
      have h2 := hshape.resolve_left (by rw [hrn]; simp)
      split
      · decide
      · exact h2
    by_cases hcondT : lowerChars r.netloc ≠ [] ∨
        ((if r.scheme = [] then "https".toList else r.scheme) ≠ [] ∧
          uses_netloc.contains (String.mk
            (if r.scheme = [] then "https".toList else r.scheme)) = true ∧
          (if rstripSlashes r.path = [] then ['/'] else rstripSlashes r.path).take 2 ≠
            ['/', '/'])
    · exact canon_fix_T _ _ _ _ hs2_ne hs2_head hs2_all hs2_low hn2_delim hn2_nosafe
        hn2_low hn2_brack hp2_ne hp2_rstrip hp2_nosafe hp2_nosharp hp2_noq hp2_nosemi
        hq2 hcondT
    · rw [not_or] at hcondT
      have hn0 : lowerChars r.netloc = [] := not_not.mp hcondT.1
      have huse : uses_netloc.contains (String.mk
          (if r.scheme = [] then "https".toList else r.scheme)) = false := by
        cases hu : uses_netloc.contains (String.mk
            (if r.scheme = [] then "https".toList else r.scheme)) with
        | false => rfl
        | true => exact absurd ⟨hs2_ne, hu, hp2_take2 hn0⟩ hcondT.2
      rw [hn0]
      exact canon_fix_F _ _ _ hs2_ne hs2_head hs2_all hs2_low hp2_ne hp2_rstrip
        (hp2_take2 hn0) hp2_nosafe hp2_nosharp hp2_noq hp2_nosemi hq2 huse

/-- C4 counterexample: canonicalize_url as written is not idempotent.
Two failure classes are exhibited.  A semicolon in the path survives the
first pass (the params split happens after the trailing slash is kept,
so the last segment holds no semicolon) but is split off as params and
dropped by the second pass.  An input that parses to an empty netloc
with a canonical path starting with two slashes ("////x") is reassembled
so that the second pass absorbs the path into the netloc. -/
theorem canonicalize_url_not_idempotent :
    (canonicalize_url "http://h/a;p/" = Except.ok "http://h/a;p" ∧
      canonicalize_url "http://h/a;p" = Except.ok "http://h/a" ∧
      ("http://h/a" : String) ≠ "http://h/a;p") ∧
    (canonicalize_url "////x" = Except.ok "https://x" ∧
      canonicalize_url "https://x" = Except.ok "https://x/" ∧
      ("https://x/" : String) ≠ "https://x") :=
  ⟨⟨by rfl, by rfl, by decide⟩, ⟨by rfl, by rfl, by decide⟩⟩

/-- C4 witness: a host with mixed case, a trailing slash and unsorted
query parameters satisfies the side condition; its canonical form is a
fixed point of canonicalize_url. -/
theorem canonicalize_url_idempotent_witness :
    idemPrecond "HTTP://Example.COM/a/?b=2&a=1#frag" = true ∧
    canonicalize_url "http://example.com/a?a=1&b=2" =
      Except.ok "http://example.com/a?a=1&b=2" :=
  ⟨by decide, canonicalize_url_idempotent "HTTP://Example.COM/a/?b=2&a=1#frag"
    "http://example.com/a?a=1&b=2" (by decide) (by rfl)⟩

/-- C10: DedupeIndex.add is atomic on rejection: a call returning
accepted = false leaves both hash maps exactly unchanged, and a call
returning accepted = true appends one fresh entry to each map. -/
theorem dedupe_add_atomic (idx : DedupeIndex) (url content title : String)
    (accepted : Bool) (key : String) (idx' : DedupeIndex)
    (h : DedupeIndex.add idx url content title = Except.ok (accepted, key, idx')) :
    (accepted = false → idx'.url_hashes = idx.url_hashes ∧
      idx'.content_hashes = idx.content_hashes) ∧
    (accepted = true → ∃ uk ck,
      dictContains idx.url_hashes uk = false ∧
      dictContains idx.content_hashes ck = false ∧
      idx'.url_hashes = idx.url_hashes ++ [(uk, uk)] ∧
      idx'.content_hashes = idx.content_hashes ++ [(ck, ck)]) := by
  unfold DedupeIndex.add at h
  cases hcu : canonicalize_url url with
  | error e =>
    rw [hcu] at h
    exact absurd h (by simp)
  | ok cu =>
    rw [hcu] at h
    dsimp only at h
    by_cases h1 : dictContains idx.url_hashes (deterministic_hash [cu]) = true
    · rw [if_pos h1] at h
      have he := Except.ok.inj h
      rw [Prod.mk.injEq, Prod.mk.injEq] at he
      constructor
      · intro _
        rw [← he.2.2]
        exact ⟨rfl, rfl⟩
      · intro hacc
        rw [← he.1] at hacc
        exact absurd hacc (by simp)
    · rw [if_neg h1] at h
      by_cases h2 : dictContains idx.content_hashes
          (deterministic_hash [String.mk (content.toList.take 5000),
            normalize_title title]) = true
      · rw [if_pos h2] at h
        have he := Except.ok.inj h
        rw [Prod.mk.injEq, Prod.mk.injEq] at he
        constructor
        · intro _
          rw [← he.2.2]
          exact ⟨rfl, rfl⟩
        · intro hacc
          rw [← he.1] at hacc
          exact absurd hacc (by simp)
      · rw [if_neg h2] at h
        have he := Except.ok.inj h
        rw [Prod.mk.injEq, Prod.mk.injEq] at he
        constructor
        · intro hacc
          rw [← he.1] at hacc
          exact absurd hacc (by simp)
        · intro _
          refine ⟨deterministic_hash [cu],
            deterministic_hash [String.mk (content.toList.take 5000),
              normalize_title title],
            Bool.eq_false_iff.mpr h1, Bool.eq_false_iff.mpr h2, ?_, ?_⟩
          · rw [← he.2.2]
          · rw [← he.2.2]

/-- C10 witness: inserting into an empty index is accepted and appends
exactly the computed url and content keys to the two maps. -/
theorem dedupe_add_atomic_witness :
    ((true : Bool) = false →
      (DedupeIndex.mk
        [("4b7efacc825af67f610170a5f6b351d1e7ddefb07aa4b819bac2dd6b321f16b8",
          "4b7efacc825af67f610170a5f6b351d1e7ddefb07aa4b819bac2dd6b321f16b8")]
        [("630343a205ad94582c47db1cf75fe154806d3fca59a3668cbaf0fec0e12095f9",
          "630343a205ad94582c47db1cf75fe154806d3fca59a3668cbaf0fec0e12095f9")]).url_hashes =
        (DedupeIndex.mk [] []).url_hashes ∧
      (DedupeIndex.mk
        [("4b7efacc825af67f610170a5f6b351d1e7ddefb07aa4b819bac2dd6b321f16b8",
          "4b7efacc825af67f610170a5f6b351d1e7ddefb07aa4b819bac2dd6b321f16b8")]
        [("630343a205ad94582c47db1cf75fe154806d3fca59a3668cbaf0fec0e12095f9",
          "630343a205ad94582c47db1cf75fe154806d3fca59a3668cbaf0fec0e12095f9")]).content_hashes =
        (DedupeIndex.mk [] []).content_hashes) ∧
    ((true : Bool) = true → ∃ uk ck,
      dictContains (DedupeIndex.mk [] []).url_hashes uk = false ∧
      dictContains (DedupeIndex.mk [] []).content_hashes ck = false ∧
      (DedupeIndex.mk
        [("4b7efacc825af67f610170a5f6b351d1e7ddefb07aa4b819bac2dd6b321f16b8",
          "4b7efacc825af67f610170a5f6b351d1e7ddefb07aa4b819bac2dd6b321f16b8")]
        [("630343a205ad94582c47db1cf75fe154806d3fca59a3668cbaf0fec0e12095f9",
          "630343a205ad94582c47db1cf75fe154806d3fca59a3668cbaf0fec0e12095f9")]).url_hashes =
        (DedupeIndex.mk [] []).url_hashes ++ [(uk, uk)] ∧
      (DedupeIndex.mk
        [("4b7efacc825af67f610170a5f6b351d1e7ddefb07aa4b819bac2dd6b321f16b8",
          "4b7efacc825af67f610170a5f6b351d1e7ddefb07aa4b819bac2dd6b321f16b8")]
        [("630343a205ad94582c47db1cf75fe154806d3fca59a3668cbaf0fec0e12095f9",
          "630343a205ad94582c47db1cf75fe154806d3fca59a3668cbaf0fec0e12095f9")]).content_hashes =
        (DedupeIndex.mk [] []).content_hashes ++ [(ck, ck)]) :=
  dedupe_add_atomic ⟨[], []⟩ "https://x" "body" "Title" true
    "4b7efacc825af67f610170a5f6b351d1e7ddefb07aa4b819bac2dd6b321f16b8"
    ⟨[("4b7efacc825af67f610170a5f6b351d1e7ddefb07aa4b819bac2dd6b321f16b8",
        "4b7efacc825af67f610170a5f6b351d1e7ddefb07aa4b819bac2dd6b321f16b8")],
      [("630343a205ad94582c47db1cf75fe154806d3fca59a3668cbaf0fec0e12095f9",
        "630343a205ad94582c47db1cf75fe154806d3fca59a3668cbaf0fec0e12095f9")]⟩
    (by rfl)
